import Mathlib

/-!
Shallow embedding of the paper_auto crawler (src/utils.py, src/db.py,
src/extractors.py, src/crawler.py, src/main.py) and proofs about the
behaviour its specification describes.

Conventions of the embedding:
* SQL TEXT columns that may be NULL become `Option String`.
* Python `None`-or-`str` values become `Option String`; Python truthiness
  of such a value ("" and None are falsy) is `pyTruthy`.
* The SQLite articles table becomes a list of rows in insertion order
  (the autoincrement id orders rows, so list order is id order).
* Remote services (HTTP fetch, translation API) become explicit function
  parameters; hashing (`hashlib.sha256`) becomes an abstract function
  parameter `hashFn`, which is deterministic by construction, exactly the
  property the code relies on.
-/

namespace PaperAuto

/-- Characters on which Python `str.split()` (no separator) splits:
the Unicode whitespace characters together with the ASCII separators
recognised by `str.isspace`. -/
def pySpaceChars : List Char :=
  [' ', '\t', '\n', '\r', '\x0b', '\x0c',
   '\x1c', '\x1d', '\x1e', '\x1f', '\x85', '\xa0',
   ' ', ' ', ' ', ' ', ' ', ' ', ' ',
   ' ', ' ', ' ', ' ', ' ',
   ' ', ' ', ' ', ' ', '　']

def isPySpace (c : Char) : Bool :=
  pySpaceChars.contains c

/-- Accumulator worker for `pyWords`: `acc` holds the characters of the
word currently being read, in reverse. -/
def pyWordsAux : List Char → List Char → List (List Char)
  | [], acc => if acc.isEmpty then [] else [acc.reverse]
  | c :: cs, acc =>
    if isPySpace c then
      if acc.isEmpty then pyWordsAux cs []
      else acc.reverse :: pyWordsAux cs []
    else pyWordsAux cs (c :: acc)

/-- The word list produced by Python `s.split()`: maximal runs of
non-whitespace characters, empty runs discarded. -/
def pyWords (l : List Char) : List (List Char) :=
  pyWordsAux l []

/-- Python `" ".join(words)`. -/
def joinWords : List (List Char) → List Char
  | [] => []
  | [w] => w
  | w :: ws => w ++ ' ' :: joinWords ws

/-- src/utils.py `clean_text`: `None` passes through; otherwise the string
is split into whitespace-separated words and rejoined with single spaces;
an empty result is turned into `None` (`return s or None`). -/
def clean_text : Option String → Option String
  | none => none
  | some s =>
    match pyWords s.toList with
    | [] => none
    | ws => some (String.mk (joinWords ws))

theorem clean_text_none : clean_text none = none := rfl

/-- A word as produced by splitting: non-empty and free of whitespace. -/
def GoodWord (w : List Char) : Prop :=
  w ≠ [] ∧ ∀ c ∈ w, isPySpace c = false

theorem pyWordsAux_good :
    ∀ (l acc : List Char), (∀ c ∈ acc, isPySpace c = false) →
      ∀ w ∈ pyWordsAux l acc, GoodWord w := by
  intro l
  induction l with
  | nil =>
    intro acc hacc w hw
    rw [pyWordsAux] at hw
    cases hae : acc.isEmpty with
    | true => simp [hae] at hw
    | false =>
      simp only [hae, Bool.false_eq_true, if_false, List.mem_singleton] at hw
      subst hw
      refine ⟨?_, fun c hc => hacc c (List.mem_reverse.mp hc)⟩
      have : acc ≠ [] := by
        intro h; rw [h] at hae; simp [List.isEmpty] at hae
      simpa using this
  | cons c cs ih =>
    intro acc hacc w hw
    rw [pyWordsAux] at hw
    cases hc : isPySpace c with
    | true =>
      simp only [hc, if_true] at hw
      cases hae : acc.isEmpty with
      | true =>
        simp only [hae, if_true] at hw
        exact ih [] (by simp) w hw
      | false =>
        simp only [hae, Bool.false_eq_true, if_false, List.mem_cons] at hw
        rcases hw with hw | hw
        · subst hw
          refine ⟨?_, fun x hx => hacc x (List.mem_reverse.mp hx)⟩
          have : acc ≠ [] := by
            intro h; rw [h] at hae; simp [List.isEmpty] at hae
          simpa using this
        · exact ih [] (by simp) w hw
    | false =>
      simp only [hc, Bool.false_eq_true, if_false] at hw
      refine ih (c :: acc) ?_ w hw
      intro x hx
      rcases List.mem_cons.mp hx with hx | hx
      · subst hx; exact hc
      · exact hacc x hx

/-- Every word produced by `pyWords` is non-empty and whitespace-free. -/
theorem pyWords_good (l : List Char) : ∀ w ∈ pyWords l, GoodWord w :=
  pyWordsAux_good l [] (by simp)

/-- Reading a run of non-space characters just pushes them onto the
accumulator. -/
theorem pyWordsAux_push :
    ∀ (w : List Char), (∀ c ∈ w, isPySpace c = false) →
      ∀ (rest acc : List Char),
        pyWordsAux (w ++ rest) acc = pyWordsAux rest (w.reverse ++ acc) := by
  intro w
  induction w with
  | nil => intro _ rest acc; simp
  | cons c cs ih =>
    intro h rest acc
    have hc : isPySpace c = false := h c (by simp)
    rw [List.cons_append, pyWordsAux]
    simp only [hc, Bool.false_eq_true, if_false]
    rw [ih (fun x hx => h x (by simp [hx])) rest (c :: acc)]
    simp

/-- Splitting a single good word yields exactly that word. -/
theorem pyWords_single {w : List Char} (hw : GoodWord w) : pyWords w = [w] := by
  have h := pyWordsAux_push w hw.2 [] []
  rw [List.append_nil] at h
  rw [pyWords, h, pyWordsAux]
  have : (w.reverse ++ []).isEmpty = false := by
    cases w with
    | nil => exact absurd rfl hw.1
    | cons c cs => simp [List.isEmpty_iff]
  simp [this, hw.1]

/-- Splitting a good word followed by a space and a remainder peels off the
word. -/
theorem pyWords_word_space {w : List Char} (hw : GoodWord w) (t : List Char) :
    pyWords (w ++ ' ' :: t) = w :: pyWords t := by
  rw [pyWords, pyWordsAux_push w hw.2 (' ' :: t) [], pyWordsAux]
  have hsp : isPySpace ' ' = true := by decide
  have hne : (w.reverse ++ []).isEmpty = false := by
    cases w with
    | nil => exact absurd rfl hw.1
    | cons c cs => simp [List.isEmpty_iff]
  simp [hsp, hne, pyWords, hw.1]

/-- Rejoining and resplitting a list of good words is the identity. -/
theorem pyWords_joinWords :
    ∀ (ws : List (List Char)), ws ≠ [] → (∀ w ∈ ws, GoodWord w) →
      pyWords (joinWords ws) = ws := by
  intro ws
  induction ws with
  | nil => intro h; exact absurd rfl h
  | cons w ws ih =>
    intro _ hgood
    cases ws with
    | nil =>
      rw [joinWords]
      exact pyWords_single (hgood w (by simp))
    | cons w2 ws2 =>
      rw [joinWords, pyWords_word_space (hgood w (by simp))]
      rw [ih (by simp) (fun x hx => hgood x (by simp [List.mem_cons] at hx ⊢; tauto))]
      simp

/-- A fully normalized character list: non-empty, every whitespace
character in it is a plain space, no two adjacent whitespace characters,
and neither end is whitespace. -/
def CleanedChars (l : List Char) : Prop :=
  l ≠ [] ∧
  (∀ c ∈ l, isPySpace c = true → c = ' ') ∧
  List.Chain' (fun a b => isPySpace a = false ∨ isPySpace b = false) l ∧
  (∀ c, l.head? = some c → isPySpace c = false) ∧
  (∀ c, l.getLast? = some c → isPySpace c = false)

theorem joinWords_single (w : List Char) : joinWords [w] = w := rfl

theorem joinWords_cons_cons (w w2 : List Char) (ws : List (List Char)) :
    joinWords (w :: w2 :: ws) = w ++ ' ' :: joinWords (w2 :: ws) := rfl

theorem joinWords_ne_nil {w : List Char} {ws : List (List Char)}
    (hw : w ≠ []) : joinWords (w :: ws) ≠ [] := by
  cases ws with
  | nil => simpa [joinWords_single] using hw
  | cons w2 ws2 =>
    rw [joinWords_cons_cons]
    simp

theorem joinWords_head? {w : List Char} (ws : List (List Char)) (hw : w ≠ []) :
    (joinWords (w :: ws)).head? = w.head? := by
  cases ws with
  | nil => rw [joinWords_single]
  | cons w2 ws2 =>
    rw [joinWords_cons_cons]
    cases w with
    | nil => exact absurd rfl hw
    | cons c w => simp

theorem joinWords_getLast_no_space :
    ∀ (ws : List (List Char)), (∀ w ∈ ws, GoodWord w) →
      ∀ c, (joinWords ws).getLast? = some c → isPySpace c = false := by
  intro ws
  induction ws with
  | nil => intro _ c hc; simp [joinWords] at hc
  | cons w ws ih =>
    intro hgood c hc
    cases ws with
    | nil =>
      rw [joinWords_single] at hc
      exact (hgood w (by simp)).2 c (List.mem_of_mem_getLast? (by simpa using hc))
    | cons w2 ws2 =>
      rw [joinWords_cons_cons, List.getLast?_append] at hc
      have hJ : joinWords (w2 :: ws2) ≠ [] := joinWords_ne_nil (hgood w2 (by simp)).1
      obtain ⟨a, ha⟩ : ∃ a, (joinWords (w2 :: ws2)).getLast? = some a := by
        cases hx : (joinWords (w2 :: ws2)).getLast? with
        | none => exact absurd (List.getLast?_eq_none_iff.mp hx) hJ
        | some a => exact ⟨a, rfl⟩
      rw [List.getLast?_cons, ha] at hc
      rw [Option.or] at hc
      simp only [Option.getD_some, Option.some.injEq] at hc
      subst hc
      exact ih (fun x hx => hgood x (by simp [List.mem_cons] at hx ⊢; tauto)) _ ha

theorem mem_joinWords {c : Char} :
    ∀ {ws : List (List Char)}, c ∈ joinWords ws → (∃ w ∈ ws, c ∈ w) ∨ c = ' ' := by
  intro ws
  induction ws with
  | nil => intro h; simp [joinWords] at h
  | cons w ws ih =>
    intro h
    cases ws with
    | nil =>
      rw [joinWords_single] at h
      exact Or.inl ⟨w, by simp, h⟩
    | cons w2 ws2 =>
      rw [joinWords_cons_cons] at h
      rcases List.mem_append.mp h with h | h
      · exact Or.inl ⟨w, by simp, h⟩
      · rcases List.mem_cons.mp h with h | h
        · exact Or.inr h
        · rcases ih h with ⟨x, hx, hc⟩ | h
          · exact Or.inl ⟨x, by simp [hx], hc⟩
          · exact Or.inr h

theorem chain'_of_no_space {l : List Char} (h : ∀ c ∈ l, isPySpace c = false) :
    List.Chain' (fun a b => isPySpace a = false ∨ isPySpace b = false) l := by
  induction l with
  | nil => simp
  | cons c l ih =>
    rw [List.chain'_cons']
    refine ⟨fun y _ => Or.inl (h c (by simp)), ih (fun x hx => h x (by simp [hx]))⟩

theorem joinWords_chain' :
    ∀ (ws : List (List Char)), (∀ w ∈ ws, GoodWord w) →
      List.Chain' (fun a b => isPySpace a = false ∨ isPySpace b = false)
        (joinWords ws) := by
  intro ws
  induction ws with
  | nil => simp [joinWords]
  | cons w ws ih =>
    intro hgood
    cases ws with
    | nil =>
      rw [joinWords]
      exact chain'_of_no_space (hgood w (by simp)).2
    | cons w2 ws2 =>
      rw [joinWords_cons_cons]
      rw [List.chain'_append]
      refine ⟨chain'_of_no_space (hgood w (by simp)).2, ?_, ?_⟩
      · rw [List.chain'_cons']
        refine ⟨?_, ih (fun x hx => hgood x (by simp [List.mem_cons] at hx ⊢; tauto))⟩
        intro y hy
        have hg2 := hgood w2 (by simp)
        have hh := joinWords_head? ws2 hg2.1
        rw [hh] at hy
        right
        exact hg2.2 y (List.mem_of_mem_head? hy)
      · intro x hx y hy
        left
        have hxl := List.mem_of_mem_getLast? hx
        exact (hgood w (by simp)).2 x hxl

theorem joinWords_cleaned {ws : List (List Char)} (hne : ws ≠ [])
    (hgood : ∀ w ∈ ws, GoodWord w) : CleanedChars (joinWords ws) := by
  cases ws with
  | nil => exact absurd rfl hne
  | cons w ws =>
    refine ⟨joinWords_ne_nil (hgood w (by simp)).1, ?_, joinWords_chain' _ hgood, ?_, ?_⟩
    · intro c hc hs
      rcases mem_joinWords hc with ⟨x, hx, hcx⟩ | h
      · exact absurd hs (by simp [(hgood x hx).2 c hcx])
      · exact h
    · intro c hc
      rw [joinWords_head? ws (hgood w (by simp)).1] at hc
      exact (hgood w (by simp)).2 c (List.mem_of_mem_head? hc)
    · intro c hc
      exact joinWords_getLast_no_space (w :: ws) hgood c hc

theorem clean_text_eq_some {s : String} {t : String}
    (h : clean_text (some s) = some t) :
    ∃ ws, pyWords s.toList = ws ∧ ws ≠ [] ∧ t = String.mk (joinWords ws) := by
  cases hw : pyWords s.toList with
  | nil =>
    rw [clean_text, hw] at h
    exact absurd h (by simp)
  | cons w ws =>
    rw [clean_text, hw] at h
    exact ⟨w :: ws, rfl, by simp, by simpa using h.symm⟩

/-- `clean_text` never produces the empty string: an empty join is mapped
to `None` by `return s or None`. -/
theorem clean_text_ne_empty {s : Option String} {t : String}
    (h : clean_text s = some t) : t ≠ "" := by
  cases s with
  | none => simp [clean_text] at h
  | some s =>
    obtain ⟨ws, hws, hne, ht⟩ := clean_text_eq_some h
    cases ws with
    | nil => exact absurd rfl hne
    | cons w ws =>
      have hgood := pyWords_good s.toList
      rw [hws] at hgood
      have : joinWords (w :: ws) ≠ [] := joinWords_ne_nil (hgood w (by simp)).1
      intro hcon
      rw [ht] at hcon
      exact this (by
        have := congrArg String.data hcon
        simpa using this)

theorem clean_text_cleaned {s : Option String} {t : String}
    (h : clean_text s = some t) : CleanedChars t.toList := by
  cases s with
  | none => simp [clean_text] at h
  | some s =>
    obtain ⟨ws, hws, hne, ht⟩ := clean_text_eq_some h
    have hgood := pyWords_good s.toList
    rw [hws] at hgood
    have : t.toList = joinWords ws := by rw [ht]; rfl
    rw [this]
    exact joinWords_cleaned hne hgood

/-- `clean_text` is idempotent. -/
theorem clean_text_idem (s : Option String) :
    clean_text (clean_text s) = clean_text s := by
  cases s with
  | none => rfl
  | some s =>
    cases hw : pyWords s.toList with
    | nil => rw [clean_text, hw]; rfl
    | cons w ws =>
      rw [clean_text, hw]
      have hgood := pyWords_good s.toList
      rw [hw] at hgood
      have hspl : (String.mk (joinWords (w :: ws))).toList = joinWords (w :: ws) := rfl
      rw [clean_text, hspl, pyWords_joinWords (w :: ws) (by simp) hgood]

/-- Python truthiness of an optional string: `None` and `""` are falsy. -/
def pyTruthy : Option String → Bool
  | none => false
  | some s => s ≠ ""

/-- Python `a or b` on optional strings. -/
def pyOr (a b : Option String) : Option String :=
  if pyTruthy a then a else b

/-- First non-`none` element of a list of options (the spec's notion of
trying stages in order and taking the first stage that yields a value). -/
def firstSome : List (Option String) → Option String
  | [] => none
  | o :: t =>
    match o with
    | some v => some v
    | none => firstSome t

theorem pyTruthy_clean_text (s : Option String) :
    pyTruthy (clean_text s) = (clean_text s).isSome := by
  cases h : clean_text s with
  | none => rfl
  | some t =>
    have := clean_text_ne_empty h
    simp [pyTruthy, this]

/-! ## The article store (src/db.py)

One row of the `articles` table.  `article_url` is declared NOT NULL and
UNIQUE; every other column is nullable TEXT.  The table itself is a list
of rows ordered by the autoincrement `id`. -/

structure Row where
  article_url : String
  search_url : Option String
  title : Option String
  journal : Option String
  published_date : Option String
  abstract_en : Option String
  abstract_zh : Option String
  abstract_en_hash : Option String
  crawled_at : Option String
  translated_at : Option String
deriving DecidableEq

/-- SQL `COALESCE(a, b)`: the first non-NULL argument. -/
def coalesce (a b : Option String) : Option String :=
  match a with
  | some v => some v
  | none => b

/-- The `ON CONFLICT(article_url) DO UPDATE` row merge of
src/db.py `upsert_article`: every column is set to
`COALESCE(excluded.col, articles.col)`. -/
def mergeRow (old incoming : Row) : Row :=
  { article_url := old.article_url
    search_url := coalesce incoming.search_url old.search_url
    title := coalesce incoming.title old.title
    journal := coalesce incoming.journal old.journal
    published_date := coalesce incoming.published_date old.published_date
    abstract_en := coalesce incoming.abstract_en old.abstract_en
    abstract_zh := coalesce incoming.abstract_zh old.abstract_zh
    abstract_en_hash := coalesce incoming.abstract_en_hash old.abstract_en_hash
    crawled_at := coalesce incoming.crawled_at old.crawled_at
    translated_at := coalesce incoming.translated_at old.translated_at }

/-- src/db.py `upsert_article`: INSERT a new row keyed by `article_url`,
or on conflict merge column-wise with COALESCE. -/
def upsert_article (db : List Row) (item : Row) : List Row :=
  if db.any (fun r => r.article_url = item.article_url) then
    db.map (fun r => if r.article_url = item.article_url then mergeRow r item else r)
  else
    db ++ [item]

/-- `SELECT ... WHERE article_url=?` on the unique key. -/
def getRow (db : List Row) (url : String) : Option Row :=
  db.find? (fun r => r.article_url = url)

/-- src/db.py `has_abstract_en`: does the row for this URL exist with a
non-NULL, non-empty `abstract_en`? -/
def has_abstract_en (db : List Row) (url : String) : Bool :=
  match getRow db url with
  | some r =>
    match r.abstract_en with
    | some s => s ≠ ""
    | none => false
  | none => false

/-- src/db.py `get_pending_translations`: rows with non-empty
`abstract_en` and NULL-or-empty `abstract_zh`, in id order, optionally
capped by a positive limit. -/
def pendingRow (r : Row) : Bool :=
  (match r.abstract_en with
   | some s => s ≠ ""
   | none => false) &&
  (match r.abstract_zh with
   | some z => z = ""
   | none => true)

def get_pending_translations (db : List Row) (limit : Nat) : List Row :=
  let rows := db.filter pendingRow
  if limit > 0 then rows.take limit else rows

/-- src/db.py `get_cached_translation`: the `abstract_zh` of the first row
whose `abstract_en_hash` equals the given hash and whose `abstract_zh` is
non-NULL and non-empty. -/
def get_cached_translation (db : List Row) (h : String) : Option String :=
  match db.find? (fun r =>
      decide (r.abstract_en_hash = some h) &&
      (match r.abstract_zh with
       | some z => z ≠ ""
       | none => false)) with
  | some r => r.abstract_zh
  | none => none

/-- src/db.py `update_translation`: set `abstract_zh` and `translated_at`
on the row with the given `article_url`. -/
def update_translation (db : List Row) (url zh tat : String) : List Row :=
  db.map (fun r =>
    if r.article_url = url then
      { r with abstract_zh := some zh, translated_at := some tat }
    else r)

/-! ## Field extraction (src/extractors.py, generic family)

An HTML article document, abstracted to the values the extractor reads:
the fields of the selected JSON-LD object (`_pick_article_jsonld`), the
`content` attributes of the various `<meta>` tags (absent tag and absent
attribute both map to `none`), the page `<title>` text, and the
paragraph text the DOM heuristic would collect (`none` when no
"abstract" heading exists; otherwise the space-joined paragraph text,
before the final `clean_text`). -/

structure GenericDoc where
  ldHeadline : Option String
  ldName : Option String
  pageTitle : Option String
  citationTitle : Option String
  ldIsPartOfName : Option String
  citationJournal : Option String
  ldDatePublished : Option String
  ldDateCreated : Option String
  articlePublishedTime : Option String
  citationPublicationDate : Option String
  ldAbstract : Option String
  ldDescription : Option String
  citationAbstract : Option String
  dcDescription : Option String
  ogDescription : Option String
  metaDescription : Option String
  domJoined : Option String
deriving DecidableEq

/-- The output record of the extractors: each field optional. -/
structure ArticleFields where
  title : Option String
  journal : Option String
  published_date : Option String
  abstract_en : Option String
deriving DecidableEq

/-- One step of the loop in src/extractors.py `_extract_meta_abstract`:
if the tag exists with a truthy `content` and the cleaned content is
truthy, return it, else move on to the next candidate tag. -/
def metaTry (content next : Option String) : Option String :=
  match content with
  | some c =>
    if c = "" then next
    else
      match clean_text (some c) with
      | some v => some v
      | none => next
  | none => next

/-- src/extractors.py `_extract_meta_abstract`: `dc.description`, then
`og:description`, then `description`. -/
def extract_meta_abstract (d : GenericDoc) : Option String :=
  metaTry d.dcDescription (metaTry d.ogDescription (metaTry d.metaDescription none))

/-- src/extractors.py `extract_fields` (generic academic family). -/
def extract_fields (d : GenericDoc) : ArticleFields :=
  let title0 := clean_text (pyOr d.ldHeadline (pyOr d.ldName d.pageTitle))
  let title := if pyTruthy title0 then title0 else clean_text d.citationTitle
  let journal0 := clean_text d.ldIsPartOfName
  let journal := if pyTruthy journal0 then journal0 else clean_text d.citationJournal
  let date0 := clean_text (pyOr d.ldDatePublished d.ldDateCreated)
  let date1 := if pyTruthy date0 then date0 else clean_text d.articlePublishedTime
  let date := if pyTruthy date1 then date1 else clean_text d.citationPublicationDate
  let a0 := clean_text (pyOr d.ldAbstract d.ldDescription)
  let a1 := if pyTruthy a0 then a0 else clean_text d.citationAbstract
  let a2 := if pyTruthy a1 then a1 else extract_meta_abstract d
  let a3 := if pyTruthy a2 then a2 else clean_text d.domJoined
  { title := title, journal := journal, published_date := date, abstract_en := a3 }

/-- Stage 1 of the spec's abstract resolution: structured data (JSON-LD
`abstract`/`description`). -/
def stageStructured (d : GenericDoc) : Option String :=
  clean_text (pyOr d.ldAbstract d.ldDescription)

/-- Stage 2: the declared `citation_abstract` metadata tag. -/
def stageCitation (d : GenericDoc) : Option String :=
  clean_text d.citationAbstract

/-- Stage 3: description-style metadata tags, in their declared order. -/
def stageMetaDesc (d : GenericDoc) : Option String :=
  firstSome [clean_text d.dcDescription, clean_text d.ogDescription,
    clean_text d.metaDescription]

/-- Stage 4: the DOM heuristic. -/
def stageDom (d : GenericDoc) : Option String :=
  clean_text d.domJoined

/-- Modelled from the spec: the abstract resolution policy as the spec
states it — the stages consulted in order, a later stage only when every
earlier stage yielded nothing after whitespace normalization. -/
def specAbstract (d : GenericDoc) : Option String :=
  firstSome [stageStructured d, stageCitation d, stageMetaDesc d, stageDom d]

theorem metaTry_eq (content next : Option String) :
    metaTry content next =
      match clean_text content with
      | some v => some v
      | none => next := by
  cases content with
  | none => rfl
  | some c =>
    by_cases hc : c = ""
    · subst hc
      have : clean_text (some "") = none := rfl
      rw [metaTry, this]
      simp
    · rw [metaTry]
      simp only [hc, if_false]

/-! ## Next-page resolution (src/crawler.py `_find_next_page_url`,
src/utils.py `normalize_url`)

A listing document, abstracted to what the resolver inspects:
* `linkRelNext`: the first `<link rel="next">` element, if any, with its
  `href` attribute (which may be absent);
* `aRelNext`: the `href` of the first `<a rel="next">` element that has
  an `href` attribute, if any such anchor exists;
* `anchors`: all `<a>` elements in document order, as (visible text as
  produced by `get_text(" ", strip=True)`, optional `href`).
`urljoin` (RFC 3986 resolution from Python's urllib) is taken as an
explicit function parameter. -/

structure NextDoc where
  linkRelNext : Option (Option String)
  aRelNext : Option String
  anchors : List (String × Option String)
deriving DecidableEq

/-- src/utils.py `normalize_url`: join against the base, then drop the
fragment.  `urlparse` splits the fragment at the first `#` and
`urlunparse` with an empty fragment reassembles the remainder. -/
def normalize_url (ujoin : String → String → String) (href base : String) : String :=
  String.mk ((ujoin base href).toList.takeWhile (fun c => c ≠ '#'))

/-- Python `str.lower()` (on the ASCII range the claims exercise). -/
def strLower (s : String) : String :=
  String.mk (s.toList.map Char.toLower)

/-- The anchor-text predicate of stage 3: visible text, lower-cased,
equal to "next" or "next page", and a truthy `href`. -/
def nextAnchorPred (a : String × Option String) : Bool :=
  (strLower a.1 = "next" || strLower a.1 = "next page") &&
  (match a.2 with
   | some h => h ≠ ""
   | none => false)

/-- Resolution of the first matching stage-3 anchor, if any. -/
def resolveAnchor (ujoin : String → String → String) (base : String) :
    Option (String × Option String) → Option String
  | some a =>
    match a.2 with
    | some h => some (normalize_url ujoin h base)
    | none => none
  | none => none

/-- src/crawler.py `_find_next_page_url` stage 3: the first anchor whose
visible text says "next"/"next page" and which carries a truthy href. -/
def findNextStage3 (ujoin : String → String → String) (base : String)
    (d : NextDoc) : Option String :=
  resolveAnchor ujoin base (d.anchors.find? nextAnchorPred)

/-- Stage 2 dispatch on the `<a rel="next">` href: used only when that
href is truthy, otherwise fall through to the given later stage. -/
def stage2Of (ujoin : String → String → String) (base : String)
    (tail : Option String) : Option String → Option String
  | some h => if h = "" then tail else some (normalize_url ujoin h base)
  | none => tail

def findNextStage2 (ujoin : String → String → String) (base : String)
    (d : NextDoc) : Option String :=
  stage2Of ujoin base (findNextStage3 ujoin base d) d.aRelNext

/-- Stage 1 dispatch on the `<link rel="next">` element and its href. -/
def stage1Of (ujoin : String → String → String) (base : String)
    (tail : Option String) : Option (Option String) → Option String
  | some (some h) => if h = "" then tail else some (normalize_url ujoin h base)
  | some none => tail
  | none => tail

/-- src/crawler.py `_find_next_page_url`: `<link rel=next>`, then
`<a rel=next>`, then a "next"/"next page" anchor; each candidate href is
resolved against the family base URL with the fragment stripped. -/
def find_next_page_url (ujoin : String → String → String) (base : String)
    (d : NextDoc) : Option String :=
  stage1Of ujoin base (findNextStage2 ujoin base d) d.linkRelNext

/-- Modelled from the spec: per-stage candidate hrefs, tried in the
spec's order, first match resolved to absolute form. -/
def specNextCandidates (d : NextDoc) : List (Option String) :=
  [ d.linkRelNext.bind (fun h? => h?.bind (fun h => if h = "" then none else some h)),
    d.aRelNext.bind (fun h => if h = "" then none else some h),
    (d.anchors.find? nextAnchorPred).bind (fun a => a.2) ]

def specNextPage (ujoin : String → String → String) (base : String)
    (d : NextDoc) : Option String :=
  (firstSome (specNextCandidates d)).map (fun h => normalize_url ujoin h base)

/-! ## The crawl orchestrator (src/crawler.py `crawl`)

The listing-page web is a map from URL to the parsed content the loop
consumes: the (deduplicated, family-filtered) article links of the page
and the already-resolved next-page URL; `none` means the listing fetch
fails (network error or non-2xx status), which `_fetch` surfaces as an
exception.  The article web maps an article URL to its extracted fields,
`none` meaning the article fetch fails.  For batches in which no unit
fails, the rate limiter and the semaphore only pace execution in time:
`gather` waits for every unit, so which fetches happen, what is stored,
and the traversal order do not depend on the schedule and are modelled
exactly.  For a batch containing a failing unit, see the note on
`BatchRun` below. -/

structure ListPage where
  articleLinks : List String
  nextUrl : Option String
deriving DecidableEq

structure CrawlCfg where
  search_url : String
  max_pages : Nat
  limit_articles : Nat
  resume : Bool
deriving DecidableEq

/-- src/crawler.py `handle_article`, one article unit.  Records which
network fetches the unit issued, whether it entered the semaphore, the
store afterwards, and whether it persisted a record (`ok` is what
increments `total_articles`). -/
structure UnitRun where
  fetched : List String
  semAcquired : Bool
  db : List Row
  ok : Bool
  failed : Bool
deriving DecidableEq

/-- The item dict built in src/crawler.py `handle_article`: cleaned
fields, the hash of the cleaned abstract when that abstract is truthy,
and no `abstract_zh`/`translated_at` keys (`item.get` yields NULL). -/
def mkCrawlItem (hashFn : String → String) (searchUrl url now : String)
    (fields : ArticleFields) : Row :=
  let abstract_en := clean_text fields.abstract_en
  { article_url := url
    search_url := some searchUrl
    title := clean_text fields.title
    journal := clean_text fields.journal
    published_date := clean_text fields.published_date
    abstract_en := abstract_en
    abstract_zh := none
    abstract_en_hash :=
      match abstract_en with
      | some s => if s = "" then none else some (hashFn s)
      | none => none
    crawled_at := some now
    translated_at := none }

def handle_article (resume : Bool) (af : String → Option ArticleFields)
    (hashFn : String → String) (searchUrl now : String) (db : List Row)
    (url : String) : UnitRun :=
  if resume && has_abstract_en db url then
    { fetched := [], semAcquired := false, db := db, ok := false, failed := false }
  else
    match af url with
    | none =>
      { fetched := [url], semAcquired := true, db := db, ok := false, failed := true }
    | some fields =>
      { fetched := [url], semAcquired := true
        db := upsert_article db (mkCrawlItem hashFn searchUrl url now fields)
        ok := true, failed := false }

/-- The result of one page's dispatched batch
(`asyncio.gather(*tasks)`).  With the default `return_exceptions=False`
the first unit failure re-raises to the awaiting loop as soon as that
unit fails; `gather` does not cancel the sibling tasks, but the
exception then escapes `crawl` and the runner's teardown cancels
whatever is still pending, so how far the siblings got is
schedule-dependent.  This model executes every unit; for a failing batch
that fixes one realizable schedule — the one in which every sibling's
I/O completes before the failing unit's exception propagates.  The only
facts about failing batches asserted as program behaviour are the
schedule-insensitive ones: that the batch fails, that the loop then
aborts without resolving the next-page link or fetching a further
listing page, and that resume-skipped units fetch nothing under any
schedule. -/
structure BatchRun where
  db : List Row
  fetched : List String
  okCount : Nat
  anyFailed : Bool
deriving DecidableEq

def batchStep (resume : Bool) (af : String → Option ArticleFields)
    (hashFn : String → String) (searchUrl now : String)
    (acc : BatchRun) (u : String) : BatchRun :=
  let r := handle_article resume af hashFn searchUrl now acc.db u
  { db := r.db
    fetched := acc.fetched ++ r.fetched
    okCount := acc.okCount + (if r.ok then 1 else 0)
    anyFailed := acc.anyFailed || r.failed }

def processBatch (resume : Bool) (af : String → Option ArticleFields)
    (hashFn : String → String) (searchUrl now : String) (db : List Row)
    (urls : List String) : BatchRun :=
  urls.foldl (batchStep resume af hashFn searchUrl now)
    { db := db, fetched := [], okCount := 0, anyFailed := false }

inductive CrawlOutcome
  | finished
  | pageFetchError
  | unitError
  | outOfFuel
deriving DecidableEq

structure CrawlState where
  seen : List String
  pageCount : Nat
  total : Nat
  db : List Row
  pageFetches : List String
  articleFetches : List String
  batches : List (Nat × List String)
deriving DecidableEq

/-- The result of one iteration of the page loop: either the loop halts
(normal break, or an exception propagating out of a fetch or out of the
batch join), or it continues with the next-page URL. -/
inductive StepRes
  | halt (st : CrawlState) (out : CrawlOutcome)
  | next (st : CrawlState) (pu : Option String)
deriving DecidableEq

/-- The tail of a loop iteration once the listing page was fetched and
parsed: quota check and truncation (`article_urls[:remain]` with a break
when the remaining quota is non-positive), the dispatched batch (whose
first failure re-raises out of `asyncio.gather`), the batch join, and
next-page resolution. -/
def crawlPageStep (cfg : CrawlCfg) (af : String → Option ArticleFields)
    (hashFn : String → String) (now : String) (st2 : CrawlState)
    (page : ListPage) : StepRes :=
  if cfg.limit_articles > 0 && decide (cfg.limit_articles ≤ st2.total) then
    .halt st2 .finished
  else
    let links :=
      if cfg.limit_articles > 0 then
        page.articleLinks.take (cfg.limit_articles - st2.total)
      else page.articleLinks
    let b := processBatch cfg.resume af hashFn cfg.search_url now st2.db links
    let st3 :=
      { st2 with
        db := b.db
        articleFetches := st2.articleFetches ++ b.fetched
        total := st2.total + b.okCount
        batches := st2.batches ++ [(st2.total, links)] }
    if b.anyFailed then .halt st3 .unitError
    else .next st3 page.nextUrl

/-- One iteration of the `while page_url:` loop of src/crawler.py
`crawl`.  Order of operations follows the source: cycle guard on the
seen-set, then the page counter and `max_pages` check, then the listing
fetch and link parsing, then the quota/batch tail above. -/
def crawlStep (cfg : CrawlCfg) (web : String → Option ListPage)
    (af : String → Option ArticleFields) (hashFn : String → String)
    (now : String) (st : CrawlState) (url : String) : StepRes :=
  if url ∈ st.seen then .halt st .finished
  else
    let st1 := { st with seen := st.seen ++ [url], pageCount := st.pageCount + 1 }
    if cfg.max_pages > 0 && decide (st1.pageCount > cfg.max_pages) then .halt st1 .finished
    else
      match web url with
      | none => .halt { st1 with pageFetches := st1.pageFetches ++ [url] } .pageFetchError
      | some page =>
        crawlPageStep cfg af hashFn now
          { st1 with pageFetches := st1.pageFetches ++ [url] } page

/-- The page loop, one iteration per fuel unit. -/
def crawlLoop (cfg : CrawlCfg) (web : String → Option ListPage)
    (af : String → Option ArticleFields) (hashFn : String → String)
    (now : String) :
    Nat → CrawlState → Option String → CrawlState × CrawlOutcome
  | _, st, none => (st, .finished)
  | 0, st, some _ => (st, .outOfFuel)
  | fuel + 1, st, some url =>
    match crawlStep cfg web af hashFn now st url with
    | .halt st2 out => (st2, out)
    | .next st2 pu => crawlLoop cfg web af hashFn now fuel st2 pu

def initCrawlState (db : List Row) : CrawlState :=
  { seen := [], pageCount := 0, total := 0, db := db,
    pageFetches := [], articleFetches := [], batches := [] }

/-- A whole crawl starting from the configured search URL over a store
`db0`, with enough `fuel` iterations. -/
def crawlRun (cfg : CrawlCfg) (web : String → Option ListPage)
    (af : String → Option ArticleFields) (hashFn : String → String)
    (now : String) (db0 : List Row) (fuel : Nat) : CrawlState × CrawlOutcome :=
  crawlLoop cfg web af hashFn now fuel (initCrawlState db0) (some cfg.search_url)

/-! ## Translation enrichment (src/main.py `run_translate`)

`process_row` is a cooperative task.  Its atomic sections, in source
order, are: the cache lookup under `db_lock`; the remote translation
call (awaited outside any lock, inside the semaphore); and the store
write under `db_lock`.  A schedule is a list of task indices; running a
task index executes that task's next atomic section.  Any interleaving
the asyncio event loop can produce is such a schedule (the event loop
may interleave whole lock-to-lock sections of different tasks, because
each task suspends at the awaited remote call and at lock/semaphore
acquisition).  The semaphore and rate limiter only pace the schedule;
they do not alter any step's effect.  Note that all tasks are created
together before the `gather`, the cache lookup sits before the
semaphore acquisition, and acquiring the uncontended `db_lock` does not
yield, so on a real run every task performs its cache lookup — in
creation order — before any remote response can arrive, at every
concurrency setting; properties claimed of the program must therefore
either hold under every schedule or be exhibited at such a schedule.
The remote service is an oracle from the call sequence number to the
returned text, which models a service that may answer the same text
differently on repeated calls. -/

inductive TransPhase
  | start
  | doTranslate (h a : String)
  | writeCached (c : String)
  | writeFresh (h zh : String)
  | finished
deriving DecidableEq

structure TransState where
  db : List Row
  tasks : List (Row × TransPhase)
  calls : List (String × String)
deriving DecidableEq

/-- `h = r["abstract_en_hash"] or sha256_text(abstract_en)`. -/
def hashForRow (hashFn : String → String) (r : Row) (a : String) : String :=
  match r.abstract_en_hash with
  | some s => if s = "" then hashFn a else s
  | none => hashFn a

def setPhase (tasks : List (Row × TransPhase)) (i : Nat) (ph : TransPhase) :
    List (Row × TransPhase) :=
  match tasks.get? i with
  | some (r, _) => tasks.set i (r, ph)
  | none => tasks

/-- `zh = clean_text(zh) or zh` applied to a raw remote response. -/
def zhNormalize (raw : String) : String :=
  match clean_text (some raw) with
  | some c => c
  | none => raw

/-- The cache branch of the first atomic section: a hit stores the
cached value for writing, a miss proceeds to the remote call. -/
def transCacheStep (st : TransState) (i : Nat) (hsh a : String) :
    Option String → TransState
  | some c => { st with tasks := setPhase st.tasks i (.writeCached c) }
  | none => { st with tasks := setPhase st.tasks i (.doTranslate hsh a) }

/-- The first atomic section (clean the abstract, then the `db_lock`
cache lookup), dispatching on the cleaned abstract. -/
def transStartStep (hashFn : String → String) (st : TransState) (i : Nat)
    (r : Row) : Option String → TransState
  | none => { st with tasks := setPhase st.tasks i .finished }
  | some a =>
    transCacheStep st i (hashForRow hashFn r a) a
      (get_cached_translation st.db (hashForRow hashFn r a))

/-- One atomic section of `process_row` for the task `(r, ph)`. -/
def transPhaseStep (hashFn : String → String) (oracle : Nat → String)
    (now : String) (st : TransState) (i : Nat) (r : Row) :
    TransPhase → TransState
  | .finished => st
  | .start => transStartStep hashFn st i r (clean_text r.abstract_en)
  | .doTranslate h a =>
    { st with
      calls := st.calls ++ [(h, a)]
      tasks := setPhase st.tasks i (.writeFresh h (zhNormalize (oracle st.calls.length))) }
  | .writeCached c =>
    { st with
      db := update_translation st.db r.article_url c now
      tasks := setPhase st.tasks i .finished }
  | .writeFresh _ zh =>
    { st with
      db := update_translation st.db r.article_url zh now
      tasks := setPhase st.tasks i .finished }

/-- One atomic section of `process_row` for task `i`. -/
def transStep (hashFn : String → String) (oracle : Nat → String) (now : String)
    (st : TransState) (i : Nat) : TransState :=
  match st.tasks.get? i with
  | none => st
  | some (r, ph) => transPhaseStep hashFn oracle now st i r ph

theorem transStep_eq (hashFn : String → String) (oracle : Nat → String)
    (now : String) (st : TransState) (i : Nat) :
    transStep hashFn oracle now st i =
      match st.tasks.get? i with
      | none => st
      | some (r, ph) => transPhaseStep hashFn oracle now st i r ph := rfl

/-- One enrichment run: take the pending rows (capped by `max_items`
when positive), spawn one task per row, execute the schedule. -/
def runTranslate (hashFn : String → String) (oracle : Nat → String)
    (now : String) (db : List Row) (maxItems : Nat)
    (schedule : List Nat) : TransState :=
  let rows := get_pending_translations db (if maxItems > 0 then maxItems else 0)
  schedule.foldl (transStep hashFn oracle now)
    { db := db, tasks := rows.map (fun r => (r, .start)), calls := [] }

/-- Remote translation calls recorded for a given hash. -/
def callsForHash (st : TransState) (h : String) : Nat :=
  (st.calls.filter (fun p => decide (p.1 = h))).length

/-- The `abstract_zh` stored for a URL after a run. -/
def zhOf (st : TransState) (url : String) : Option String :=
  match getRow st.db url with
  | some r => r.abstract_zh
  | none => none

/-! ## Claim theorems -/

/-- C10: `clean_text` never returns the empty string and is idempotent:
for every input it is either `None` or a non-empty string in which every
whitespace character is a single plain space, no two whitespace
characters are adjacent, and neither the first nor the last character is
whitespace; and applying `clean_text` to its own output returns that
output unchanged. -/
theorem clean_text_normal_form_and_idempotent (s : Option String) :
    (clean_text s = none ∨
      ∃ t, clean_text s = some t ∧ t ≠ "" ∧ CleanedChars t.toList) ∧
    clean_text (clean_text s) = clean_text s := by
  constructor
  · cases h : clean_text s with
    | none => exact Or.inl rfl
    | some t => exact Or.inr ⟨t, rfl, clean_text_ne_empty h, clean_text_cleaned h⟩
  · exact clean_text_idem s

theorem firstSome_mem :
    ∀ {l : List (Option String)} {t : String}, firstSome l = some t → some t ∈ l := by
  intro l
  induction l with
  | nil => intro t h; simp [firstSome] at h
  | cons o rest ih =>
    intro t h
    cases o with
    | some v =>
      have h2 : some v = some t := h
      rw [← h2]
      simp
    | none =>
      have h2 : firstSome rest = some t := h
      exact List.mem_cons_of_mem _ (ih h2)

theorem extract_meta_abstract_eq (d : GenericDoc) :
    extract_meta_abstract d = stageMetaDesc d := by
  rw [extract_meta_abstract, stageMetaDesc, metaTry_eq, metaTry_eq, metaTry_eq]
  cases clean_text d.dcDescription with
  | some v => rfl
  | none =>
    cases clean_text d.ogDescription with
    | some v => rfl
    | none => cases clean_text d.metaDescription <;> rfl

theorem stageMetaDesc_ne_empty {d : GenericDoc} {t : String}
    (h : stageMetaDesc d = some t) : t ≠ "" := by
  rw [stageMetaDesc] at h
  cases ha : clean_text d.dcDescription with
  | some v =>
    rw [ha] at h
    have h2 : v = t := by simpa using (show some v = some t from h)
    subst h2
    exact clean_text_ne_empty ha
  | none =>
    rw [ha] at h
    have h1 : firstSome [clean_text d.ogDescription, clean_text d.metaDescription]
        = some t := h
    cases hb : clean_text d.ogDescription with
    | some v =>
      rw [hb] at h1
      have h2 : v = t := by simpa using (show some v = some t from h1)
      subst h2
      exact clean_text_ne_empty hb
    | none =>
      rw [hb] at h1
      have h2 : firstSome [clean_text d.metaDescription] = some t := h1
      cases hc : clean_text d.metaDescription with
      | some v =>
        rw [hc] at h2
        have h3 : v = t := by simpa using (show some v = some t from h2)
        subst h3
        exact clean_text_ne_empty hc
      | none =>
        rw [hc] at h2
        exact absurd (show (none : Option String) = some t from h2) (by simp)

/-- C8: the abstract produced by generic-family `extract_fields` is
exactly the first value produced by the spec's stage order — structured
data, then the citation abstract tag, then the description-style tags,
then the DOM heuristic, each later stage consulted only when every
earlier one yields nothing after whitespace normalization; on a document
carrying both a structured-data abstract and a conflicting
`citation_abstract` tag the structured value wins, and with only the
metadata tag it wins over the DOM heuristic. -/
theorem extract_fields_abstract_stage_order :
    (∀ d : GenericDoc, (extract_fields d).abstract_en = specAbstract d) ∧
    (extract_fields
      { ldHeadline := none, ldName := none, pageTitle := none,
        citationTitle := none, ldIsPartOfName := none, citationJournal := none,
        ldDatePublished := none, ldDateCreated := none,
        articlePublishedTime := none, citationPublicationDate := none,
        ldAbstract := some "Structured abstract.", ldDescription := none,
        citationAbstract := some "Conflicting meta abstract.",
        dcDescription := none, ogDescription := none, metaDescription := none,
        domJoined := some "Dom text." }).abstract_en = some "Structured abstract." ∧
    (extract_fields
      { ldHeadline := none, ldName := none, pageTitle := none,
        citationTitle := none, ldIsPartOfName := none, citationJournal := none,
        ldDatePublished := none, ldDateCreated := none,
        articlePublishedTime := none, citationPublicationDate := none,
        ldAbstract := none, ldDescription := none,
        citationAbstract := some "Meta abstract.",
        dcDescription := none, ogDescription := none, metaDescription := none,
        domJoined := some "Dom text." }).abstract_en = some "Meta abstract." := by
  refine ⟨?_, by decide, by decide⟩
  intro d
  have hm := extract_meta_abstract_eq d
  rw [extract_fields]
  simp only [specAbstract, firstSome, stageStructured, stageCitation, stageDom]
  cases h1 : clean_text (pyOr d.ldAbstract d.ldDescription) with
  | some t1 =>
    have hne1 : t1 ≠ "" := clean_text_ne_empty h1
    simp [h1, pyTruthy, hne1]
  | none =>
    cases h2 : clean_text d.citationAbstract with
    | some t2 =>
      have hne2 : t2 ≠ "" := clean_text_ne_empty h2
      simp [h1, h2, pyTruthy, hne2]
    | none =>
      cases h3 : stageMetaDesc d with
      | some t3 =>
        have hne3 : t3 ≠ "" := stageMetaDesc_ne_empty h3
        simp [h1, h2, h3, hm, pyTruthy, hne3]
      | none =>
        simp only [h1, h2, h3, hm, pyTruthy]
        cases clean_text d.domJoined <;> simp [pyTruthy]

theorem normalize_url_no_fragment (ujoin : String → String → String)
    (href base : String) :
    (normalize_url ujoin href base).toList.all (fun c => c ≠ '#') = true := by
  rw [normalize_url]
  rw [List.all_eq_true]
  intro x hx
  have hx2 : x ∈ (ujoin base href).toList.takeWhile (fun c => decide (c ≠ '#')) := hx
  exact @List.mem_takeWhile_imp Char (fun c => decide (c ≠ '#'))
    ((ujoin base href).toList) x hx2

theorem resolveAnchor_eq (ujoin : String → String → String) (base : String)
    (o : Option (String × Option String)) :
    resolveAnchor ujoin base o =
      (o.bind (fun a => a.2)).map (fun h => normalize_url ujoin h base) := by
  cases o with
  | none => rfl
  | some a =>
    obtain ⟨t, ho⟩ := a
    cases ho <;> rfl

theorem stage2Of_eq (ujoin : String → String → String) (base : String)
    (tail : Option String) (o : Option String) :
    stage2Of ujoin base tail o =
      match o.bind (fun h => if h = "" then none else some h) with
      | some h => some (normalize_url ujoin h base)
      | none => tail := by
  cases o with
  | none => rfl
  | some h =>
    by_cases hh : h = ""
    · simp [stage2Of, hh]
    · simp [stage2Of, hh]

theorem stage1Of_eq (ujoin : String → String → String) (base : String)
    (tail : Option String) (L : Option (Option String)) :
    stage1Of ujoin base tail L =
      match L.bind (fun h? => h?.bind (fun h => if h = "" then none else some h)) with
      | some h => some (normalize_url ujoin h base)
      | none => tail := by
  cases L with
  | none => rfl
  | some h? =>
    cases h? with
    | none => rfl
    | some h =>
      by_cases hh : h = ""
      · simp [stage1Of, hh]
      · simp [stage1Of, hh]

/-- C9: next-page resolution tries, in order, the `<link rel=next>`
href, the `<a rel=next>` href, and the href of the first anchor whose
extracted visible text case-insensitively reads "next" or "next page";
it returns the first candidate present, resolved against the family
base URL with the fragment stripped, and `none` when no stage yields a
candidate; every returned URL is fragment-free. -/
theorem find_next_page_url_stage_order :
    (∀ (ujoin : String → String → String) (base : String) (d : NextDoc),
      find_next_page_url ujoin base d = specNextPage ujoin base d) ∧
    (∀ (ujoin : String → String → String) (base : String) (d : NextDoc),
      Option.all (fun u => u.toList.all (fun c => c ≠ '#'))
        (find_next_page_url ujoin base d) = true) ∧
    find_next_page_url (fun b h => b ++ h) "https://www.nature.com"
      { linkRelNext := none, aRelNext := none,
        anchors := [("previous", some "/page1"), ("Next issue", some "/x")] } = none := by
  have heq : ∀ (ujoin : String → String → String) (base : String) (d : NextDoc),
      find_next_page_url ujoin base d = specNextPage ujoin base d := by
    intro ujoin base d
    rw [find_next_page_url, findNextStage2, findNextStage3, stage1Of_eq, stage2Of_eq,
      resolveAnchor_eq, specNextPage, specNextCandidates]
    cases h1 : d.linkRelNext.bind (fun h? => h?.bind (fun h => if h = "" then none else some h)) with
    | some h => simp [firstSome]
    | none =>
      cases h2 : d.aRelNext.bind (fun h => if h = "" then none else some h) with
      | some h => simp [firstSome]
      | none =>
        cases h3 : (d.anchors.find? nextAnchorPred).bind (fun a => a.2) with
        | some h => simp [firstSome]
        | none => simp [firstSome]
  refine ⟨heq, ?_, by decide⟩
  intro ujoin base d
  rw [heq ujoin base d, specNextPage]
  cases firstSome (specNextCandidates d) with
  | none => rfl
  | some h => exact normalize_url_no_fragment ujoin h base

theorem mergeRow_url (old incoming : Row) :
    (mergeRow old incoming).article_url = old.article_url := rfl

theorem getRow_map_merge (item : Row) :
    ∀ (db : List Row) (old : Row), getRow db item.article_url = some old →
      getRow (db.map (fun r =>
        if r.article_url = item.article_url then mergeRow r item else r))
        item.article_url = some (mergeRow old item) := by
  intro db
  induction db with
  | nil => intro old h; simp [getRow] at h
  | cons r rest ih =>
    intro old h
    by_cases hr : r.article_url = item.article_url
    · rw [getRow, List.find?_cons_of_pos _ (by simp [hr])] at h
      have hold : r = old := by simpa using h
      subst hold
      rw [List.map_cons, if_pos hr, getRow,
        List.find?_cons_of_pos _ (by simp [mergeRow_url, hr])]
    · rw [getRow, List.find?_cons_of_neg _ (by simp [hr])] at h
      rw [List.map_cons, if_neg hr, getRow, List.find?_cons_of_neg _ (by simp [hr])]
      exact ih old h

theorem getRow_map_merge_other (item : Row) {u : String} (hu : u ≠ item.article_url) :
    ∀ (db : List Row),
      getRow (db.map (fun r =>
        if r.article_url = item.article_url then mergeRow r item else r)) u
        = getRow db u := by
  intro db
  induction db with
  | nil => rfl
  | cons r rest ih =>
    by_cases hr : r.article_url = item.article_url
    · have hru : ¬(r.article_url = u) := by rw [hr]; exact fun h => hu h.symm
      rw [List.map_cons, if_pos hr, getRow, getRow,
        List.find?_cons_of_neg _ (by simp [mergeRow_url, hru]),
        List.find?_cons_of_neg _ (by simp [hru])]
      exact ih
    · rw [List.map_cons, if_neg hr, getRow, getRow]
      by_cases hru : r.article_url = u
      · rw [List.find?_cons_of_pos _ (by simp [hru]),
          List.find?_cons_of_pos _ (by simp [hru])]
      · rw [List.find?_cons_of_neg _ (by simp [hru]),
          List.find?_cons_of_neg _ (by simp [hru])]
        exact ih

theorem getRow_append_single {u : String} {item : Row} (hu : u ≠ item.article_url) :
    ∀ (db : List Row), getRow (db ++ [item]) u = getRow db u := by
  intro db
  induction db with
  | nil =>
    rw [List.nil_append, getRow, getRow,
      List.find?_cons_of_neg _ (by simp [Ne.symm hu])]
  | cons r rest ih =>
    rw [List.cons_append, getRow, getRow]
    by_cases hru : r.article_url = u
    · rw [List.find?_cons_of_pos _ (by simp [hru]),
        List.find?_cons_of_pos _ (by simp [hru])]
    · rw [List.find?_cons_of_neg _ (by simp [hru]),
        List.find?_cons_of_neg _ (by simp [hru])]
      exact ih

theorem getRow_upsert_self {db : List Row} {item old : Row}
    (h : getRow db item.article_url = some old) :
    getRow (upsert_article db item) item.article_url = some (mergeRow old item) := by
  rw [upsert_article]
  have hmem := List.mem_of_find?_eq_some h
  have hpred := List.find?_some h
  have hany : db.any (fun r => r.article_url = item.article_url) = true := by
    rw [List.any_eq_true]
    exact ⟨old, hmem, hpred⟩
  rw [if_pos hany]
  exact getRow_map_merge item db old h

theorem getRow_upsert_other {db : List Row} {item : Row} {u : String}
    (hu : u ≠ item.article_url) :
    getRow (upsert_article db item) u = getRow db u := by
  rw [upsert_article]
  by_cases hany : db.any (fun r => r.article_url = item.article_url) = true
  · rw [if_pos hany]
    exact getRow_map_merge_other item hu db
  · rw [if_neg hany]
    exact getRow_append_single hu db

/-- A merged field only fills gaps: the incoming value wins whenever it
is non-NULL (including when it is the empty string), and the stored
value survives exactly when the incoming one is NULL. -/
def FillsGap (incoming stored merged : Option String) : Prop :=
  (∀ v, incoming = some v → merged = some v) ∧ (incoming = none → merged = stored)

theorem coalesce_fillsGap (a b : Option String) : FillsGap a b (coalesce a b) := by
  constructor
  · intro v hv; rw [hv]; rfl
  · intro hv; rw [hv]; rfl

/-- C1 amended: `upsert_article` merges with SQL COALESCE, which guards
against NULL only — after the merge each column equals the incoming
value whenever that value is non-NULL (an incoming empty string is
non-NULL and does overwrite), and equals the previously stored value
exactly when the incoming value is NULL; rows with other URLs are
untouched. -/
theorem upsert_gap_filling_merge (db : List Row) (item old : Row)
    (h : getRow db item.article_url = some old) :
    ∃ merged, getRow (upsert_article db item) item.article_url = some merged ∧
      FillsGap item.search_url old.search_url merged.search_url ∧
      FillsGap item.title old.title merged.title ∧
      FillsGap item.journal old.journal merged.journal ∧
      FillsGap item.published_date old.published_date merged.published_date ∧
      FillsGap item.abstract_en old.abstract_en merged.abstract_en ∧
      FillsGap item.abstract_zh old.abstract_zh merged.abstract_zh ∧
      FillsGap item.abstract_en_hash old.abstract_en_hash merged.abstract_en_hash ∧
      FillsGap item.crawled_at old.crawled_at merged.crawled_at ∧
      FillsGap item.translated_at old.translated_at merged.translated_at ∧
      merged.article_url = old.article_url ∧
      (∀ u, u ≠ item.article_url →
        getRow (upsert_article db item) u = getRow db u) :=
  ⟨mergeRow old item, getRow_upsert_self h,
    coalesce_fillsGap _ _, coalesce_fillsGap _ _, coalesce_fillsGap _ _,
    coalesce_fillsGap _ _, coalesce_fillsGap _ _, coalesce_fillsGap _ _,
    coalesce_fillsGap _ _, coalesce_fillsGap _ _, coalesce_fillsGap _ _,
    rfl, fun _ hu => getRow_upsert_other hu⟩

def c1Stored : Row :=
  { article_url := "https://www.nature.com/articles/a1", search_url := none,
    title := some "Kept title", journal := none, published_date := none,
    abstract_en := none, abstract_zh := none, abstract_en_hash := none,
    crawled_at := none, translated_at := none }

def c1Incoming : Row :=
  { article_url := "https://www.nature.com/articles/a1", search_url := none,
    title := some "", journal := none, published_date := none,
    abstract_en := none, abstract_zh := none, abstract_en_hash := none,
    crawled_at := none, translated_at := none }

/-- C1 counterexample: an incoming *empty* (non-NULL) title overwrites a
previously stored non-null title — COALESCE treats the empty string as
present — so the merge does not keep the stored value as the claim
requires for null-or-empty incoming values. -/
theorem upsert_empty_string_overwrites :
    c1Stored.title = some "Kept title" ∧
    c1Incoming.title = some "" ∧
    (getRow (upsert_article [c1Stored] c1Incoming)
      "https://www.nature.com/articles/a1").map Row.title = some (some "") ∧
    (getRow (upsert_article [c1Stored] c1Incoming)
      "https://www.nature.com/articles/a1").map Row.title
      ≠ some (some "Kept title") := by decide

/-- Witness for C1 amended at a concrete store and item. -/
theorem upsert_gap_filling_merge_witness :
    ∃ merged,
      getRow (upsert_article [c1Stored] c1Incoming) c1Incoming.article_url
        = some merged ∧
      FillsGap c1Incoming.title c1Stored.title merged.title := by
  obtain ⟨m, h1, _, h2, _⟩ :=
    upsert_gap_filling_merge [c1Stored] c1Incoming c1Stored (by decide)
  exact ⟨m, h1, h2⟩

/-- The hash-consistency invariant: every stored row with a non-empty
`abstract_en` carries exactly the hash of that string. -/
def HashInv (hashFn : String → String) (db : List Row) : Prop :=
  ∀ r ∈ db, ∀ s, r.abstract_en = some s → s ≠ "" → r.abstract_en_hash = some (hashFn s)

theorem mkCrawlItem_pair (hashFn : String → String)
    (searchUrl url now : String) (fields : ArticleFields) :
    ((mkCrawlItem hashFn searchUrl url now fields).abstract_en = none ∧
      (mkCrawlItem hashFn searchUrl url now fields).abstract_en_hash = none) ∨
    (∃ t, t ≠ "" ∧
      (mkCrawlItem hashFn searchUrl url now fields).abstract_en = some t ∧
      (mkCrawlItem hashFn searchUrl url now fields).abstract_en_hash
        = some (hashFn t)) := by
  rw [mkCrawlItem]
  cases hA : clean_text fields.abstract_en with
  | none => exact Or.inl ⟨by simp [hA], by simp [hA]⟩
  | some t =>
    have hne := clean_text_ne_empty hA
    exact Or.inr ⟨t, hne, by simp [hA], by simp [hA, hne]⟩

/-- C6: the hash column always matches the current non-empty
`abstract_en`: the invariant holds of the empty store, and every crawl
upsert preserves it because `handle_article` always supplies the freshly
computed hash of the very cleaned abstract it supplies (or supplies
neither). -/
theorem crawl_upsert_hash_consistency (hashFn : String → String) :
    HashInv hashFn [] ∧
    ∀ (db : List Row) (searchUrl url now : String) (fields : ArticleFields),
      HashInv hashFn db →
      HashInv hashFn
        (upsert_article db (mkCrawlItem hashFn searchUrl url now fields)) := by
  constructor
  · intro r hr
    simp at hr
  · intro db searchUrl url now fields hinv r hr s hs hne
    have hpair := mkCrawlItem_pair hashFn searchUrl url now fields
    set item := mkCrawlItem hashFn searchUrl url now fields with hitem
    rw [upsert_article] at hr
    by_cases hany : db.any (fun r => r.article_url = item.article_url) = true
    · rw [if_pos hany] at hr
      obtain ⟨r0, hr0mem, hr0⟩ := List.mem_map.mp hr
      by_cases hkey : r0.article_url = item.article_url
      · rw [if_pos hkey] at hr0
        subst hr0
        rcases hpair with ⟨hpe, hph⟩ | ⟨t, htne, hpe, hph⟩
        · have habs : (mergeRow r0 item).abstract_en = r0.abstract_en := by
            simp [mergeRow, hpe, coalesce]
          have hhash : (mergeRow r0 item).abstract_en_hash = r0.abstract_en_hash := by
            simp [mergeRow, hph, coalesce]
          rw [habs] at hs
          rw [hhash]
          exact hinv r0 hr0mem s hs hne
        · have habs : (mergeRow r0 item).abstract_en = some t := by
            simp [mergeRow, hpe, coalesce]
          have hhash : (mergeRow r0 item).abstract_en_hash = some (hashFn t) := by
            simp [mergeRow, hph, coalesce]
          rw [habs] at hs
          have hts : t = s := by simpa using hs
          subst hts
          exact hhash
      · rw [if_neg hkey] at hr0
        subst hr0
        exact hinv r0 hr0mem s hs hne
    · rw [if_neg hany] at hr
      rcases List.mem_append.mp hr with hr | hr
      · exact hinv r hr s hs hne
      · have hri : r = item := by simpa using hr
        subst hri
        rcases hpair with ⟨hpe, _⟩ | ⟨t, _, hpe, hph⟩
        · rw [hpe] at hs
          exact absurd hs (by simp)
        · rw [hpe] at hs
          have hts : t = s := by simpa using hs
          subst hts
          exact hph

/-- Witness for C6 at a concrete hash function, store and article. -/
theorem crawl_upsert_hash_consistency_witness :
    HashInv (fun s => s ++ "?sha") (upsert_article []
      (mkCrawlItem (fun s => s ++ "?sha") "https://www.nature.com/search"
        "https://www.nature.com/articles/a1" "2024-01-01T00:00:00+00:00"
        { title := some "A title", journal := none, published_date := none,
          abstract_en := some "  An   abstract. " })) :=
  (crawl_upsert_hash_consistency (fun s => s ++ "?sha")).2 []
    "https://www.nature.com/search" "https://www.nature.com/articles/a1"
    "2024-01-01T00:00:00+00:00"
    { title := some "A title", journal := none, published_date := none,
      abstract_en := some "  An   abstract. " }
    ((crawl_upsert_hash_consistency (fun s => s ++ "?sha")).1)

theorem has_abstract_en_upsert_other {db : List Row} {item : Row} {u : String}
    (hne : item.article_url ≠ u) :
    has_abstract_en (upsert_article db item) u = has_abstract_en db u := by
  rw [has_abstract_en, has_abstract_en, getRow_upsert_other (Ne.symm hne)]

theorem handle_article_skip {af : String → Option ArticleFields}
    {hashFn : String → String} {searchUrl now : String} {db : List Row}
    {url : String} (h : has_abstract_en db url = true) :
    handle_article true af hashFn searchUrl now db url =
      { fetched := [], semAcquired := false, db := db, ok := false,
        failed := false } := by
  rw [handle_article]
  simp [h]

theorem batchStep_resume_skip (af : String → Option ArticleFields)
    (hashFn : String → String) (searchUrl now : String) (U u : String)
    (acc : BatchRun) (h1 : has_abstract_en acc.db U = true)
    (h2 : U ∉ acc.fetched) :
    has_abstract_en (batchStep true af hashFn searchUrl now acc u).db U = true ∧
    U ∉ (batchStep true af hashFn searchUrl now acc u).fetched := by
  rw [batchStep]
  by_cases hu : u = U
  · subst hu
    rw [handle_article_skip h1]
    exact ⟨h1, by simpa using h2⟩
  · rw [handle_article]
    by_cases hres : (true && has_abstract_en acc.db u) = true
    · rw [if_pos hres]
      exact ⟨h1, by simpa using h2⟩
    · rw [if_neg hres]
      cases haf : af u with
      | none =>
        dsimp only
        refine ⟨h1, ?_⟩
        simp only [List.mem_append, List.mem_singleton]
        rintro (hx | hx)
        · exact h2 hx
        · exact hu hx.symm
      | some fields =>
        dsimp only
        constructor
        · have hkey : (mkCrawlItem hashFn searchUrl u now fields).article_url = u := rfl
          rw [has_abstract_en_upsert_other (by rw [hkey]; exact fun h => hu h)]
          exact h1
        · simp only [List.mem_append, List.mem_singleton]
          rintro (hx | hx)
          · exact h2 hx
          · exact hu hx.symm

theorem batch_fold_resume_skip (af : String → Option ArticleFields)
    (hashFn : String → String) (searchUrl now : String) (U : String) :
    ∀ (urls : List String) (acc : BatchRun),
      has_abstract_en acc.db U = true → U ∉ acc.fetched →
      has_abstract_en
        ((urls.foldl (batchStep true af hashFn searchUrl now) acc).db) U = true ∧
      U ∉ (urls.foldl (batchStep true af hashFn searchUrl now) acc).fetched := by
  intro urls
  induction urls with
  | nil => intro acc h1 h2; exact ⟨h1, h2⟩
  | cons u rest ih =>
    intro acc h1 h2
    rw [List.foldl_cons]
    have hstep := batchStep_resume_skip af hashFn searchUrl now U u acc h1 h2
    exact ih _ hstep.1 hstep.2

/-- C7: with resume enabled and the store already holding a non-empty
`abstract_en` for a URL, the unit for that URL issues no fetch, acquires
no semaphore slot, writes nothing, and persists nothing; and a page
batch over any link list never fetches that URL. -/
theorem resume_skip_no_fetch (af : String → Option ArticleFields)
    (hashFn : String → String) (searchUrl now : String) :
    (∀ (db : List Row) (url : String), has_abstract_en db url = true →
      handle_article true af hashFn searchUrl now db url =
        { fetched := [], semAcquired := false, db := db, ok := false,
          failed := false }) ∧
    (∀ (db : List Row) (urls : List String) (U : String),
      has_abstract_en db U = true →
      U ∉ (processBatch true af hashFn searchUrl now db urls).fetched) := by
  constructor
  · intro db url h
    exact handle_article_skip h
  · intro db urls U h
    rw [processBatch]
    exact (batch_fold_resume_skip af hashFn searchUrl now U urls
      { db := db, fetched := [], okCount := 0, anyFailed := false } h
      (by simp)).2

def c7Db : List Row :=
  [{ article_url := "https://www.nature.com/articles/a1", search_url := none,
     title := some "T", journal := none, published_date := none,
     abstract_en := some "Already captured abstract.", abstract_zh := none,
     abstract_en_hash := some "deadbeef", crawled_at := none,
     translated_at := none }]

/-- Witness for C7: a concrete resumed store and listing batch. -/
theorem resume_skip_no_fetch_witness :
    handle_article true (fun _ => none) (fun s => s) "S" "T" c7Db
        "https://www.nature.com/articles/a1" =
      { fetched := [], semAcquired := false, db := c7Db, ok := false,
        failed := false } ∧
    "https://www.nature.com/articles/a1" ∉
      (processBatch true (fun _ => none) (fun s => s) "S" "T" c7Db
        ["https://www.nature.com/articles/a1",
         "https://www.nature.com/articles/a2"]).fetched :=
  ⟨(resume_skip_no_fetch (fun _ => none) (fun s => s) "S" "T").1 c7Db
      "https://www.nature.com/articles/a1" (by decide),
   (resume_skip_no_fetch (fun _ => none) (fun s => s) "S" "T").2 c7Db
      ["https://www.nature.com/articles/a1",
       "https://www.nature.com/articles/a2"]
      "https://www.nature.com/articles/a1" (by decide)⟩

def stateOf : StepRes → CrawlState
  | .halt st _ => st
  | .next st _ => st

/-- How one loop iteration grows the traversal state when the page URL
is fresh: the URL joins the seen-set; the page-fetch log grows by at
most that URL; and any batch logged this iteration respects the
remaining article quota. -/
def StepGrowth (cfg : CrawlCfg) (st st2 : CrawlState) (url : String) : Prop :=
  st2.seen = st.seen ++ [url] ∧
  (st2.pageFetches = st.pageFetches ∨ st2.pageFetches = st.pageFetches ++ [url]) ∧
  (st2.batches = st.batches ∨
    ∃ links, st2.batches = st.batches ++ [(st.total, links)] ∧
      (cfg.limit_articles > 0 →
        links.length ≤ cfg.limit_articles - st.total ∧
        st.total < cfg.limit_articles))

theorem crawlStep_seen (cfg : CrawlCfg) (web : String → Option ListPage)
    (af : String → Option ArticleFields) (hashFn : String → String)
    (now : String) {st : CrawlState} {url : String} (h : url ∈ st.seen) :
    crawlStep cfg web af hashFn now st url = .halt st .finished := by
  rw [crawlStep, if_pos h]

theorem crawlPageStep_growth (cfg : CrawlCfg) (af : String → Option ArticleFields)
    (hashFn : String → String) (now : String) (st2 : CrawlState) (page : ListPage) :
    (stateOf (crawlPageStep cfg af hashFn now st2 page)).seen = st2.seen ∧
    ((stateOf (crawlPageStep cfg af hashFn now st2 page)).pageFetches
      = st2.pageFetches) ∧
    ((stateOf (crawlPageStep cfg af hashFn now st2 page)).batches = st2.batches ∨
      ∃ links, (stateOf (crawlPageStep cfg af hashFn now st2 page)).batches
          = st2.batches ++ [(st2.total, links)] ∧
        (cfg.limit_articles > 0 →
          links.length ≤ cfg.limit_articles - st2.total ∧
          st2.total < cfg.limit_articles)) := by
  rw [crawlPageStep]
  by_cases hq : (decide (cfg.limit_articles > 0) && decide (cfg.limit_articles ≤ st2.total)) = true
  · rw [if_pos hq]
    exact ⟨rfl, rfl, Or.inl rfl⟩
  · rw [if_neg hq]
    dsimp only
    have hbound : cfg.limit_articles > 0 →
        (if cfg.limit_articles > 0 then
          page.articleLinks.take (cfg.limit_articles - st2.total)
        else page.articleLinks).length ≤ cfg.limit_articles - st2.total ∧
        st2.total < cfg.limit_articles := by
      intro hlim
      rw [if_pos hlim]
      constructor
      · exact List.length_take_le _ _
      · simp only [Bool.and_eq_true, decide_eq_true_eq, not_and] at hq
        omega
    by_cases hf : (processBatch cfg.resume af hashFn cfg.search_url now st2.db
        (if cfg.limit_articles > 0 then
          page.articleLinks.take (cfg.limit_articles - st2.total)
        else page.articleLinks)).anyFailed = true
    · rw [if_pos hf]
      exact ⟨rfl, rfl, Or.inr ⟨_, rfl, hbound⟩⟩
    · rw [if_neg hf]
      exact ⟨rfl, rfl, Or.inr ⟨_, rfl, hbound⟩⟩

theorem crawlStep_growth (cfg : CrawlCfg) (web : String → Option ListPage)
    (af : String → Option ArticleFields) (hashFn : String → String)
    (now : String) (st : CrawlState) (url : String) (h : url ∉ st.seen) :
    StepGrowth cfg st (stateOf (crawlStep cfg web af hashFn now st url)) url := by
  rw [crawlStep, if_neg h]
  dsimp only
  by_cases hmp : (decide (cfg.max_pages > 0) && decide (st.pageCount + 1 > cfg.max_pages)) = true
  · rw [if_pos hmp]
    exact ⟨rfl, Or.inl rfl, Or.inl rfl⟩
  · rw [if_neg hmp]
    cases hw : web url with
    | none => exact ⟨rfl, Or.inr rfl, Or.inl rfl⟩
    | some page =>
      obtain ⟨hseen2, hpf2, hb2⟩ := crawlPageStep_growth cfg af hashFn now
        { st with seen := st.seen ++ [url], pageCount := st.pageCount + 1, pageFetches := st.pageFetches ++ [url] } page
      refine ⟨hseen2, Or.inr hpf2, ?_⟩
      rcases hb2 with hb2 | ⟨links, heq, hbd⟩
      · exact Or.inl hb2
      · exact Or.inr ⟨links, heq, hbd⟩

theorem crawlLoop_pageFetches_nodup (cfg : CrawlCfg)
    (web : String → Option ListPage) (af : String → Option ArticleFields)
    (hashFn : String → String) (now : String) :
    ∀ (fuel : Nat) (st : CrawlState) (pu : Option String),
      st.pageFetches.Nodup → (∀ p ∈ st.pageFetches, p ∈ st.seen) →
      ((crawlLoop cfg web af hashFn now fuel st pu).1.pageFetches).Nodup := by
  intro fuel
  induction fuel with
  | zero =>
    intro st pu h1 h2
    cases pu with
    | none => exact h1
    | some url => exact h1
  | succ fuel ih =>
    intro st pu h1 h2
    cases pu with
    | none => exact h1
    | some url =>
      rw [crawlLoop]
      by_cases hseen : url ∈ st.seen
      · rw [crawlStep_seen cfg web af hashFn now hseen]
        exact h1
      · have hg := crawlStep_growth cfg web af hashFn now st url hseen
        have hnu : url ∉ st.pageFetches := fun hx => hseen (h2 url hx)
        cases hcs : crawlStep cfg web af hashFn now st url with
        | halt st2 out =>
          rw [hcs] at hg
          dsimp only [stateOf] at hg
          obtain ⟨hseen2, hpf, _⟩ := hg
          rcases hpf with hpf | hpf
          · rw [hpf]; exact h1
          · rw [hpf]
            rw [List.nodup_append]
            refine ⟨h1, List.nodup_singleton url, ?_⟩
            intro a ha hb
            rw [List.mem_singleton] at hb
            subst hb
            exact hnu ha
        | next st2 pu2 =>
          rw [hcs] at hg
          dsimp only [stateOf] at hg
          obtain ⟨hseen2, hpf, _⟩ := hg
          apply ih st2 pu2
          · rcases hpf with hpf | hpf
            · rw [hpf]; exact h1
            · rw [hpf]
              rw [List.nodup_append]
              refine ⟨h1, List.nodup_singleton url, ?_⟩
              intro a ha hb
              rw [List.mem_singleton] at hb
              subst hb
              exact hnu ha
          · intro p hp
            rw [hseen2]
            rcases hpf with hpf | hpf
            · rw [hpf] at hp
              exact List.mem_append_left _ (h2 p hp)
            · rw [hpf] at hp
              rcases List.mem_append.mp hp with hp | hp
              · exact List.mem_append_left _ (h2 p hp)
              · exact List.mem_append_right _ hp

def cycleWeb : String → Option ListPage := fun u =>
  if u = "P1" then some { articleLinks := [], nextUrl := some "P2" }
  else if u = "P2" then some { articleLinks := [], nextUrl := some "P3" }
  else if u = "P3" then some { articleLinks := [], nextUrl := some "P1" }
  else none

def cycleCfg : CrawlCfg :=
  { search_url := "P1", max_pages := 0, limit_articles := 0, resume := false }

def cycleRun : CrawlState × CrawlOutcome :=
  crawlRun cycleCfg cycleWeb (fun _ => none) (fun s => s) "T" [] 10

/-- C5: a crawl never fetches the same listing URL twice — the fetch log
of any run is duplicate-free — and on the cycle P1→P2→P3→P1 the
traversal fetches P1, P2, P3 exactly once each and then halts cleanly as
a normal termination. -/
theorem pagination_cycle_guard :
    (∀ (cfg : CrawlCfg) (web : String → Option ListPage)
      (af : String → Option ArticleFields) (hashFn : String → String)
      (now : String) (db0 : List Row) (fuel : Nat),
      ((crawlRun cfg web af hashFn now db0 fuel).1.pageFetches).Nodup) ∧
    cycleRun.1.pageFetches = ["P1", "P2", "P3"] ∧
    cycleRun.2 = CrawlOutcome.finished := by
  refine ⟨?_, by decide, by decide⟩
  intro cfg web af hashFn now db0 fuel
  exact crawlLoop_pageFetches_nodup cfg web af hashFn now fuel
    (initCrawlState db0) (some cfg.search_url) (by simp [initCrawlState])
    (by simp [initCrawlState])

theorem crawlLoop_batches_bound (cfg : CrawlCfg)
    (web : String → Option ListPage) (af : String → Option ArticleFields)
    (hashFn : String → String) (now : String) :
    ∀ (fuel : Nat) (st : CrawlState) (pu : Option String),
      (∀ b ∈ st.batches, cfg.limit_articles > 0 →
        b.2.length ≤ cfg.limit_articles - b.1 ∧ b.1 < cfg.limit_articles) →
      ∀ b ∈ (crawlLoop cfg web af hashFn now fuel st pu).1.batches,
        cfg.limit_articles > 0 →
        b.2.length ≤ cfg.limit_articles - b.1 ∧ b.1 < cfg.limit_articles := by
  intro fuel
  induction fuel with
  | zero =>
    intro st pu hinv
    cases pu with
    | none => exact hinv
    | some url => exact hinv
  | succ fuel ih =>
    intro st pu hinv
    cases pu with
    | none => exact hinv
    | some url =>
      rw [crawlLoop]
      by_cases hseen : url ∈ st.seen
      · rw [crawlStep_seen cfg web af hashFn now hseen]
        exact hinv
      · have hg := crawlStep_growth cfg web af hashFn now st url hseen
        cases hcs : crawlStep cfg web af hashFn now st url with
        | halt st2 out =>
          rw [hcs] at hg
          dsimp only [stateOf] at hg
          obtain ⟨_, _, hb⟩ := hg
          dsimp only
          rcases hb with hb | ⟨links, heq, hbd⟩
          · rw [hb]; exact hinv
          · rw [heq]
            intro b hbmem hlim
            rcases List.mem_append.mp hbmem with hmem | hmem
            · exact hinv b hmem hlim
            · have hbeq : b = (st.total, links) := by simpa using hmem
              subst hbeq
              exact hbd hlim
        | next st2 pu2 =>
          rw [hcs] at hg
          dsimp only [stateOf] at hg
          obtain ⟨_, _, hb⟩ := hg
          apply ih st2 pu2
          rcases hb with hb | ⟨links, heq, hbd⟩
          · rw [hb]; exact hinv
          · rw [heq]
            intro b hbmem hlim
            rcases List.mem_append.mp hbmem with hmem | hmem
            · exact hinv b hmem hlim
            · have hbeq : b = (st.total, links) := by simpa using hmem
              subst hbeq
              exact hbd hlim

def quotaWeb : String → Option ListPage := fun u =>
  if u = "P1" then some { articleLinks := ["a1", "a2", "a3", "a4", "a5", "a6", "a7", "a8"], nextUrl := some "P2" }
  else if u = "P2" then some { articleLinks := ["b1", "b2"], nextUrl := none }
  else none

def quotaAf : String → Option ArticleFields := fun _ =>
  some { title := some "T", journal := none, published_date := none,
         abstract_en := some "An abstract." }

def quotaCfg : CrawlCfg :=
  { search_url := "P1", max_pages := 0, limit_articles := 5, resume := false }

def quotaRun : CrawlState × CrawlOutcome :=
  crawlRun quotaCfg quotaWeb quotaAf (fun s => s) "T" [] 10

/-- C3 amended: with a positive limit L and k articles persisted, at most
L − k article units are dispatched for a page (links truncated to the
remaining quota before dispatch, and a batch is only dispatched while
quota remains); with limit 5 and a page exposing 8 links exactly 5 units
are dispatched; once the limit is reached the crawl stops dispatching —
it fetches at most one further listing page and halts at the quota check
performed after that fetch, before dispatching any of its articles. -/
theorem quota_truncation_bound :
    (∀ (cfg : CrawlCfg) (web : String → Option ListPage)
      (af : String → Option ArticleFields) (hashFn : String → String)
      (now : String) (db0 : List Row) (fuel : Nat),
      ∀ b ∈ (crawlRun cfg web af hashFn now db0 fuel).1.batches,
        cfg.limit_articles > 0 →
        b.2.length ≤ cfg.limit_articles - b.1 ∧ b.1 < cfg.limit_articles) ∧
    quotaRun.1.batches = [(0, ["a1", "a2", "a3", "a4", "a5"])] ∧
    quotaRun.1.articleFetches.length = 5 ∧
    quotaRun.1.total = 5 ∧
    quotaRun.2 = CrawlOutcome.finished := by
  refine ⟨?_, by decide, by decide, by decide, by decide⟩
  intro cfg web af hashFn now db0 fuel
  exact crawlLoop_batches_bound cfg web af hashFn now fuel
    (initCrawlState db0) (some cfg.search_url) (by simp [initCrawlState])

/-- Witness for the quantified quota bound of C3 at a concrete run. -/
theorem quota_truncation_bound_witness :
    ((0 : Nat), ["a1", "a2", "a3", "a4", "a5"]).2.length
      ≤ quotaCfg.limit_articles - 0 ∧ 0 < quotaCfg.limit_articles :=
  quota_truncation_bound.1 quotaCfg quotaWeb quotaAf (fun s => s) "T" [] 10
    (0, ["a1", "a2", "a3", "a4", "a5"]) (by decide) (by decide)

/-- C3 counterexample: the quota check runs only after a listing page has
been fetched, so once 5 of 5 articles are persisted the crawl still
fetches the next listing page P2 before halting — it does not halt
before fetching a further listing page. -/
theorem quota_does_not_prevent_next_page_fetch :
    quotaCfg.limit_articles = 5 ∧
    quotaRun.1.total = 5 ∧
    quotaRun.1.pageFetches = ["P1", "P2"] ∧
    quotaRun.1.pageFetches ≠ ["P1"] := by decide

theorem crawlStep_eq_pagestep (cfg : CrawlCfg) (web : String → Option ListPage)
    (af : String → Option ArticleFields) (hashFn : String → String)
    (now : String) (st : CrawlState) (url : String) (page : ListPage)
    (h1 : url ∉ st.seen)
    (h2 : (decide (cfg.max_pages > 0) && decide (st.pageCount + 1 > cfg.max_pages)) = false)
    (h3 : web url = some page) :
    crawlStep cfg web af hashFn now st url =
      crawlPageStep cfg af hashFn now
        { st with seen := st.seen ++ [url], pageCount := st.pageCount + 1, pageFetches := st.pageFetches ++ [url] }
        page := by
  rw [crawlStep, if_neg h1]
  dsimp only
  rw [if_neg (by simp [h2]), h3]

theorem crawlPageStep_fail (cfg : CrawlCfg) (af : String → Option ArticleFields)
    (hashFn : String → String) (now : String) (st2 : CrawlState)
    (page : ListPage)
    (h4 : (decide (cfg.limit_articles > 0) && decide (cfg.limit_articles ≤ st2.total)) = false)
    (h5 : (processBatch cfg.resume af hashFn cfg.search_url now st2.db
        (if cfg.limit_articles > 0 then
          page.articleLinks.take (cfg.limit_articles - st2.total)
        else page.articleLinks)).anyFailed = true) :
    ∃ st3, crawlPageStep cfg af hashFn now st2 page = .halt st3 .unitError ∧
      st3.pageFetches = st2.pageFetches := by
  rw [crawlPageStep]
  rw [if_neg (by simp [h4])]
  dsimp only
  rw [if_pos h5]
  exact ⟨_, rfl, rfl⟩

/-- C2 amended: a fetch failure in one article unit is not retried and
propagates out of the awaited `asyncio.gather`, aborting the crawl: the
page loop iteration ends with a unit error, the page's next-page link is
never consulted, and no further listing page is fetched.  (`gather`
itself does not cancel the sibling units, but the run ends before they
are awaited, so their completion is not guaranteed and nothing is
asserted about their effects.) -/
theorem unit_failure_semantics :
    ∀ (cfg : CrawlCfg) (web : String → Option ListPage)
      (af : String → Option ArticleFields) (hashFn : String → String)
      (now : String) (fuel : Nat) (st : CrawlState) (url : String)
      (page : ListPage),
      url ∉ st.seen →
      (decide (cfg.max_pages > 0) && decide (st.pageCount + 1 > cfg.max_pages)) = false →
      web url = some page →
      (decide (cfg.limit_articles > 0) && decide (cfg.limit_articles ≤ st.total)) = false →
      (processBatch cfg.resume af hashFn cfg.search_url now st.db
        (if cfg.limit_articles > 0 then
          page.articleLinks.take (cfg.limit_articles - st.total)
        else page.articleLinks)).anyFailed = true →
      (crawlLoop cfg web af hashFn now (fuel + 1) st (some url)).2
        = CrawlOutcome.unitError ∧
      (crawlLoop cfg web af hashFn now (fuel + 1) st (some url)).1.pageFetches
        = st.pageFetches ++ [url] := by
  intro cfg web af hashFn now fuel st url page h1 h2 h3 h4 h5
  have hcs := crawlStep_eq_pagestep cfg web af hashFn now st url page h1 h2 h3
  obtain ⟨st3, hps, hpf⟩ := crawlPageStep_fail cfg af hashFn now
    { st with seen := st.seen ++ [url], pageCount := st.pageCount + 1, pageFetches := st.pageFetches ++ [url] }
    page h4 h5
  rw [crawlLoop, hcs, hps]
  exact ⟨rfl, hpf⟩

def failWeb : String → Option ListPage := fun u =>
  if u = "P1" then some { articleLinks := ["A", "B"], nextUrl := some "P2" }
  else if u = "P2" then some { articleLinks := [], nextUrl := none }
  else none

def failAf : String → Option ArticleFields := fun u =>
  if u = "A" then none
  else some { title := some "T", journal := none, published_date := none,
              abstract_en := some "Sibling abstract." }

def failCfg : CrawlCfg :=
  { search_url := "P1", max_pages := 0, limit_articles := 0, resume := false }

def failRun : CrawlState × CrawlOutcome :=
  crawlRun failCfg failWeb failAf (fun s => s) "T" [] 10

/-- C2 counterexample: with page P1 linking articles A (fetch fails) and
B, and a next page P2, the crawl ends with a unit error after P1 and P2
is never fetched: the failure aborts the page loop instead of letting
the orchestrator resolve the next-page link and continue the traversal
as the claim states.  (Only these schedule-insensitive facts are
asserted; how far sibling B got before the run tore down is not.) -/
theorem unit_failure_aborts_crawl :
    failRun.2 = CrawlOutcome.unitError ∧
    failRun.1.pageFetches = ["P1"] ∧
    "P2" ∉ failRun.1.pageFetches := by decide

/-- Witness for C2 amended at a concrete failing batch. -/
theorem unit_failure_semantics_witness :
    (crawlLoop failCfg failWeb failAf (fun s => s) "T" 1 (initCrawlState [])
      (some "P1")).2 = CrawlOutcome.unitError ∧
    (crawlLoop failCfg failWeb failAf (fun s => s) "T" 1 (initCrawlState [])
      (some "P1")).1.pageFetches = (initCrawlState []).pageFetches ++ ["P1"] :=
  unit_failure_semantics failCfg failWeb failAf (fun s => s) "T" 0
    (initCrawlState []) "P1" { articleLinks := ["A", "B"], nextUrl := some "P2" }
    (by decide) (by decide) (by decide) (by decide) (by decide)

def c4Row1 : Row :=
  { article_url := "u1", search_url := none, title := none, journal := none,
    published_date := none, abstract_en := some "Shared abstract.",
    abstract_zh := none, abstract_en_hash := some "H", crawled_at := none,
    translated_at := none }

def c4Row2 : Row :=
  { article_url := "u2", search_url := none, title := none, journal := none,
    published_date := none, abstract_en := some "Shared abstract.",
    abstract_zh := none, abstract_en_hash := some "H", crawled_at := none,
    translated_at := none }

def c4Oracle : Nat → String := fun n => if n = 0 then "甲译文" else "乙译文"

/-- The run under the schedule the event loop actually takes at any
concurrency setting, including 1: both co-created tasks check the cache
before either has written its result, because the cache lookup precedes
the semaphore and the first task suspends at the awaited remote call
(holding the semaphore) before the second task runs. -/
def c4RaceRun : TransState :=
  runTranslate (fun s => s) c4Oracle "T" [c4Row1, c4Row2] 0 [0, 1, 0, 0, 1, 1]

/-- C4 counterexample: two pending records with the same
`abstract_en_hash` H both miss the cache before either write happens, so
the remote translation is invoked twice for H and the two records end up
with different `abstract_zh` values. -/
theorem translate_race_double_call :
    callsForHash c4RaceRun "H" = 2 ∧
    zhOf c4RaceRun "u1" = some "甲译文" ∧
    zhOf c4RaceRun "u2" = some "乙译文" ∧
    zhOf c4RaceRun "u1" ≠ zhOf c4RaceRun "u2" := by decide

theorem mem_setPhase {tasks : List (Row × TransPhase)} {i : Nat}
    {ph : TransPhase} {p : Row × TransPhase} (h : p ∈ setPhase tasks i ph) :
    p ∈ tasks ∨ ∃ q ∈ tasks, tasks.get? i = some q ∧ p = (q.1, ph) := by
  rw [setPhase] at h
  cases hg : tasks.get? i with
  | none => rw [hg] at h; exact Or.inl h
  | some q =>
    obtain ⟨r, ph0⟩ := q
    rw [hg] at h
    rcases List.mem_or_eq_of_mem_set h with h | h
    · exact Or.inl h
    · exact Or.inr ⟨(r, ph0), List.get?_mem hg, rfl, h⟩

theorem setPhase_inv {tasks : List (Row × TransPhase)} {i : Nat}
    {ph : TransPhase} (P : Row × TransPhase → Prop)
    (hall : ∀ p ∈ tasks, P p)
    (hnew : ∀ q ∈ tasks, tasks.get? i = some q → P (q.1, ph)) :
    ∀ p ∈ setPhase tasks i ph, P p := by
  intro p hp
  rcases mem_setPhase hp with hp | ⟨q, hq, hgi, hpe⟩
  · exact hall p hp
  · rw [hpe]
    exact hnew q hq hgi

theorem mem_update_translation {row : Row} {db : List Row} {u zh tat : String}
    (h : row ∈ update_translation db u zh tat) :
    ∃ row0 ∈ db, row0.article_url = row.article_url ∧
      row0.abstract_en_hash = row.abstract_en_hash ∧
      (row = row0 ∨ (row0.article_url = u ∧ row.abstract_zh = some zh)) := by
  rw [update_translation] at h
  obtain ⟨row0, h0, heq⟩ := List.mem_map.mp h
  by_cases hu : row0.article_url = u
  · rw [if_pos hu] at heq
    exact ⟨row0, h0, by rw [← heq], by rw [← heq], Or.inr ⟨hu, by rw [← heq]⟩⟩
  · rw [if_neg hu] at heq
    exact ⟨row0, h0, by rw [heq], by rw [heq], Or.inl heq.symm⟩

theorem mem_update_translation_of_ne {rc : Row} {db : List Row} {u zh tat : String}
    (h : rc ∈ db) (hne : rc.article_url ≠ u) :
    rc ∈ update_translation db u zh tat := by
  rw [update_translation]
  refine List.mem_map.mpr ⟨rc, h, ?_⟩
  rw [if_neg hne]

theorem get_cached_of_inv {H v0 : String} {rc : Row}
    (hrcH : rc.abstract_en_hash = some H) (hrcZ : rc.abstract_zh = some v0)
    (hv0 : v0 ≠ "") :
    ∀ (db : List Row), rc ∈ db →
      (∀ row ∈ db, row.abstract_en_hash = some H →
        ∀ z, row.abstract_zh = some z → z ≠ "" → z = v0) →
      get_cached_translation db H = some v0 := by
  intro db
  induction db with
  | nil => intro hmem; simp at hmem
  | cons r rest ih =>
    intro hmem hall
    rw [get_cached_translation]
    by_cases hp : (decide (r.abstract_en_hash = some H) &&
        (match r.abstract_zh with
         | some z => (z ≠ "" : Bool)
         | none => false)) = true
    · rw [@List.find?_cons_of_pos Row (fun r =>
          decide (r.abstract_en_hash = some H) &&
          (match r.abstract_zh with
           | some z => (z ≠ "" : Bool)
           | none => false)) r rest hp]
      show r.abstract_zh = some v0
      simp only [Bool.and_eq_true, decide_eq_true_eq] at hp
      obtain ⟨hph, hpz⟩ := hp
      cases hzz : r.abstract_zh with
      | none => rw [hzz] at hpz; simp at hpz
      | some z =>
        rw [hzz] at hpz
        simp at hpz
        have := hall r (by simp) hph z hzz hpz
        rw [this]
    · rw [@List.find?_cons_of_neg Row (fun r =>
          decide (r.abstract_en_hash = some H) &&
          (match r.abstract_zh with
           | some z => (z ≠ "" : Bool)
           | none => false)) r rest hp]
      have hrc2 : rc ∈ rest := by
        rcases List.mem_cons.mp hmem with h | h
        · exfalso
          apply hp
          rw [← h]
          simp [hrcH, hrcZ, hv0]
        · exact h
      exact ih hrc2 (fun row hrow => hall row (by simp [hrow]))

theorem get_pending_mem {db : List Row} {limit : Nat} {r : Row}
    (h : r ∈ get_pending_translations db limit) :
    r ∈ db ∧ pendingRow r = true := by
  simp only [get_pending_translations] at h
  split at h
  · exact List.mem_filter.mp (List.mem_of_mem_take h)
  · exact List.mem_filter.mp h

/-- Per-task invariant for a hash `H` whose cached value is `v0`: no
in-flight remote call and no pending fresh write targets an `H`-row,
and a pending cached write for an `H`-row writes `v0`. -/
def TaskOkForHash (H v0 : String) (p : Row × TransPhase) : Prop :=
  (∀ h a, p.2 = TransPhase.doTranslate h a →
    h ≠ H ∧ p.1.abstract_en_hash ≠ some H) ∧
  (∀ h zh, p.2 = TransPhase.writeFresh h zh →
    p.1.abstract_en_hash ≠ some H) ∧
  (∀ c, p.2 = TransPhase.writeCached c →
    p.1.abstract_en_hash = some H → c = v0)

theorem taskOk_start (H v0 : String) (r : Row) :
    TaskOkForHash H v0 (r, TransPhase.start) :=
  ⟨(fun _ _ h => nomatch h), (fun _ _ h => nomatch h), (fun _ h => nomatch h)⟩

theorem taskOk_finished (H v0 : String) (r : Row) :
    TaskOkForHash H v0 (r, TransPhase.finished) :=
  ⟨(fun _ _ h => nomatch h), (fun _ _ h => nomatch h), (fun _ h => nomatch h)⟩

/-- State invariant: the cached row `rc` (hash `H`, value `v0`) is in
the database, every `H`-row with a non-empty translation carries `v0`,
no task or recorded call can write anything else for an `H`-row, no
task touches `rc`'s URL, and each task row agrees with every database
row sharing its URL on the stored hash. -/
def CacheInv (H v0 : String) (rc : Row) (st : TransState) : Prop :=
  rc ∈ st.db ∧
  (∀ row ∈ st.db, row.abstract_en_hash = some H →
    ∀ z, row.abstract_zh = some z → z ≠ "" → z = v0) ∧
  (∀ p ∈ st.tasks, TaskOkForHash H v0 p) ∧
  (∀ q ∈ st.calls, q.1 ≠ H) ∧
  (∀ p ∈ st.tasks, p.1.article_url ≠ rc.article_url) ∧
  (∀ p ∈ st.tasks, ∀ row ∈ st.db,
    row.article_url = p.1.article_url →
    row.abstract_en_hash = p.1.abstract_en_hash)

theorem transStep_cacheInv {H v0 : String} {rc : Row}
    (hashFn : String → String) (oracle : Nat → String) (now : String)
    (hrcH : rc.abstract_en_hash = some H) (hrcZ : rc.abstract_zh = some v0)
    (hv0 : v0 ≠ "") (hH : H ≠ "")
    {st : TransState} (hinv : CacheInv H v0 rc st) (i : Nat) :
    CacheInv H v0 rc (transStep hashFn oracle now st i) := by
  obtain ⟨h1, h2, h3, h4, h5, h6⟩ := hinv
  rw [transStep_eq]
  cases hg : st.tasks.get? i with
  | none => exact ⟨h1, h2, h3, h4, h5, h6⟩
  | some p =>
    obtain ⟨r, ph⟩ := p
    have hmemr : (r, ph) ∈ st.tasks := List.get?_mem hg
    show CacheInv H v0 rc (transPhaseStep hashFn oracle now st i r ph)
    cases ph with
    | finished => exact ⟨h1, h2, h3, h4, h5, h6⟩
    | start =>
      show CacheInv H v0 rc
        (transStartStep hashFn st i r (clean_text r.abstract_en))
      cases hct : clean_text r.abstract_en with
      | none =>
        refine ⟨h1, h2, ?_, h4, ?_, ?_⟩
        · exact setPhase_inv _ h3 (fun q hq _ => taskOk_finished H v0 q.1)
        · exact setPhase_inv _ h5 (fun q hq _ => h5 q hq)
        · exact setPhase_inv _ h6 (fun q hq _ => h6 q hq)
      | some a =>
        show CacheInv H v0 rc
          (transCacheStep st i (hashForRow hashFn r a) a
            (get_cached_translation st.db (hashForRow hashFn r a)))
        have hcache : get_cached_translation st.db H = some v0 :=
          get_cached_of_inv hrcH hrcZ hv0 st.db h1 h2
        have hashHit : r.abstract_en_hash = some H →
            hashForRow hashFn r a = H := by
          intro hrH
          have hbody : hashForRow hashFn r a =
              match r.abstract_en_hash with
              | some s => if s = "" then hashFn a else s
              | none => hashFn a := rfl
          rw [hbody, hrH]
          exact if_neg hH
        cases hgc : get_cached_translation st.db (hashForRow hashFn r a) with
        | some c =>
          refine ⟨h1, h2, ?_, h4, ?_, ?_⟩
          · refine setPhase_inv _ h3 ?_
            intro q hq hgq
            have hq2 : q = (r, TransPhase.start) :=
              Option.some.inj (hgq.symm.trans hg)
            rw [hq2]
            refine ⟨(fun _ _ hph => nomatch hph), (fun _ _ hph => nomatch hph), ?_⟩
            intro c' hc' hrH
            have hc2 : c = c' := TransPhase.writeCached.inj hc'
            have hHF := hashHit hrH
            rw [hHF] at hgc
            have hcv : c = v0 := Option.some.inj (hgc.symm.trans hcache)
            rw [← hc2]
            exact hcv
          · exact setPhase_inv _ h5 (fun q hq _ => h5 q hq)
          · exact setPhase_inv _ h6 (fun q hq _ => h6 q hq)
        | none =>
          refine ⟨h1, h2, ?_, h4, ?_, ?_⟩
          · refine setPhase_inv _ h3 ?_
            intro q hq hgq
            have hq2 : q = (r, TransPhase.start) :=
              Option.some.inj (hgq.symm.trans hg)
            rw [hq2]
            have hne : hashForRow hashFn r a ≠ H := by
              intro hEq
              rw [hEq] at hgc
              exact Option.noConfusion (hgc.symm.trans hcache)
            refine ⟨?_, (fun _ _ hph => nomatch hph), (fun _ hph => nomatch hph)⟩
            intro h' a' hph
            have hinj := TransPhase.doTranslate.inj hph
            constructor
            · rw [← hinj.1]
              exact hne
            · intro hrH
              exact hne (hashHit hrH)
          · exact setPhase_inv _ h5 (fun q hq _ => h5 q hq)
          · exact setPhase_inv _ h6 (fun q hq _ => h6 q hq)
    | doTranslate hh aa =>
      have hok := h3 (r, .doTranslate hh aa) hmemr
      have hda := hok.1 hh aa rfl
      refine ⟨h1, h2, ?_, ?_, ?_, ?_⟩
      · refine setPhase_inv _ h3 ?_
        intro q hq hgq
        have hq2 : q = (r, TransPhase.doTranslate hh aa) :=
          Option.some.inj (hgq.symm.trans hg)
        rw [hq2]
        refine ⟨(fun _ _ hph => nomatch hph), ?_, (fun _ hph => nomatch hph)⟩
        intro h' zh' hph
        exact hda.2
      · intro q hq
        rcases List.mem_append.mp hq with hq | hq
        · exact h4 q hq
        · have hqe : q = (hh, aa) := List.mem_singleton.mp hq
          rw [hqe]
          exact hda.1
      · exact setPhase_inv _ h5 (fun q hq _ => h5 q hq)
      · exact setPhase_inv _ h6 (fun q hq _ => h6 q hq)
    | writeCached c =>
      have hok := h3 (r, .writeCached c) hmemr
      have hurl : r.article_url ≠ rc.article_url := h5 (r, .writeCached c) hmemr
      refine ⟨?_, ?_, ?_, h4, ?_, ?_⟩
      · exact mem_update_translation_of_ne h1 (Ne.symm hurl)
      · intro row hrow hrH z hz hzne
        obtain ⟨row0, h0, hu, hh0, hcase⟩ := mem_update_translation hrow
        rcases hcase with heq | ⟨hu2, hz2⟩
        · subst heq
          exact h2 _ h0 hrH z hz hzne
        · have hr0h : row0.abstract_en_hash = r.abstract_en_hash :=
            h6 (r, .writeCached c) hmemr row0 h0 hu2
          have hrh : r.abstract_en_hash = some H := by
            rw [← hr0h, hh0]
            exact hrH
          have hcv : c = v0 := hok.2.2 c rfl hrh
          have hzc : c = z := Option.some.inj (hz2.symm.trans hz)
          rw [← hzc]
          exact hcv
      · exact setPhase_inv _ h3 (fun q hq _ => taskOk_finished H v0 q.1)
      · exact setPhase_inv _ h5 (fun q hq _ => h5 q hq)
      · have hall : ∀ p ∈ st.tasks,
            ∀ row ∈ update_translation st.db r.article_url c now,
            row.article_url = p.1.article_url →
            row.abstract_en_hash = p.1.abstract_en_hash := by
          intro p hp row hrow hurow
          obtain ⟨row0, h0, hu, hh0, _⟩ := mem_update_translation hrow
          rw [← hh0]
          exact h6 p hp row0 h0 (hu.trans hurow)
        exact setPhase_inv _ hall (fun q hq _ => hall q hq)
    | writeFresh hh zhv =>
      have hok := h3 (r, .writeFresh hh zhv) hmemr
      have hfr : r.abstract_en_hash ≠ some H := hok.2.1 hh zhv rfl
      have hurl : r.article_url ≠ rc.article_url := h5 (r, .writeFresh hh zhv) hmemr
      refine ⟨?_, ?_, ?_, h4, ?_, ?_⟩
      · exact mem_update_translation_of_ne h1 (Ne.symm hurl)
      · intro row hrow hrH z hz hzne
        obtain ⟨row0, h0, hu, hh0, hcase⟩ := mem_update_translation hrow
        rcases hcase with heq | ⟨hu2, hz2⟩
        · subst heq
          exact h2 _ h0 hrH z hz hzne
        · exfalso
          have hr0h : row0.abstract_en_hash = r.abstract_en_hash :=
            h6 (r, .writeFresh hh zhv) hmemr row0 h0 hu2
          apply hfr
          rw [← hr0h, hh0]
          exact hrH
      · exact setPhase_inv _ h3 (fun q hq _ => taskOk_finished H v0 q.1)
      · exact setPhase_inv _ h5 (fun q hq _ => h5 q hq)
      · have hall : ∀ p ∈ st.tasks,
            ∀ row ∈ update_translation st.db r.article_url zhv now,
            row.article_url = p.1.article_url →
            row.abstract_en_hash = p.1.abstract_en_hash := by
          intro p hp row hrow hurow
          obtain ⟨row0, h0, hu, hh0, _⟩ := mem_update_translation hrow
          rw [← hh0]
          exact h6 p hp row0 h0 (hu.trans hurow)
        exact setPhase_inv _ hall (fun q hq _ => hall q hq)

/-- C4 (amended): the translation cache deduplicates remote calls only
across runs, through translations persisted before the run starts.  If
some database row carries hash `H` with a non-empty `abstract_zh` value
`v0` (URLs are unique, and every `H`-row with a non-empty translation
agrees on `v0`), then whatever schedule the event loop takes the remote
translator is never invoked for `H`, the cached row survives the run
unchanged in the database, and at the end every `H`-row with a
non-empty translation still carries exactly `v0`.  Within a single run
the lookup and the write sit in separate `db_lock` sections with the
awaited remote call in between, so co-created tasks sharing an uncached
hash each miss the cache and each call the remote once - at every
concurrency setting - and their stored values may differ (see the
counterexample). -/
theorem translate_cached_hash_reuse
    (hashFn : String → String) (oracle : Nat → String) (now : String)
    (db : List Row) (H v0 : String) (rc : Row)
    (hUniq : List.Pairwise (fun a b : Row => a.article_url ≠ b.article_url) db)
    (hrc : rc ∈ db) (hrcH : rc.abstract_en_hash = some H)
    (hrcZ : rc.abstract_zh = some v0) (hv0 : v0 ≠ "") (hH : H ≠ "")
    (hInit : ∀ row ∈ db, row.abstract_en_hash = some H →
      ∀ z, row.abstract_zh = some z → z ≠ "" → z = v0)
    (maxItems : Nat) (schedule : List Nat) :
    callsForHash (runTranslate hashFn oracle now db maxItems schedule) H = 0 ∧
    rc ∈ (runTranslate hashFn oracle now db maxItems schedule).db ∧
    (∀ row ∈ (runTranslate hashFn oracle now db maxItems schedule).db,
      row.abstract_en_hash = some H →
      ∀ z, row.abstract_zh = some z → z ≠ "" → z = v0) := by
  have hsame : ∀ a ∈ db, ∀ b ∈ db, a.article_url = b.article_url → a = b := by
    intro a ha b hb hab
    by_contra hne
    have hsymm : Symmetric (fun a b : Row => a.article_url ≠ b.article_url) :=
      fun _ _ hxy h => hxy h.symm
    exact (hUniq.forall hsymm ha hb hne) hab
  have hpendrc : pendingRow rc = false := by
    have hbody : pendingRow rc =
        ((match rc.abstract_en with
          | some s => (s ≠ "" : Bool)
          | none => false) &&
         (match rc.abstract_zh with
          | some z => (z = "" : Bool)
          | none => true)) := rfl
    rw [hbody, hrcZ]
    simp [hv0]
  have hinv0 : CacheInv H v0 rc
      { db := db,
        tasks := (get_pending_translations db
          (if maxItems > 0 then maxItems else 0)).map
            (fun r => (r, TransPhase.start)),
        calls := [] } := by
    refine ⟨hrc, hInit, ?_, ?_, ?_, ?_⟩
    · intro p hp
      obtain ⟨r0, hr0, hpe⟩ := List.mem_map.mp hp
      rw [← hpe]
      exact taskOk_start H v0 r0
    · intro q hq
      exact absurd hq (List.not_mem_nil q)
    · intro p hp
      obtain ⟨r0, hr0, hpe⟩ := List.mem_map.mp hp
      obtain ⟨hr0db, hr0pend⟩ := get_pending_mem hr0
      have hp1 : p.1 = r0 := by rw [← hpe]
      rw [hp1]
      intro hEq
      rw [hsame r0 hr0db rc hrc hEq] at hr0pend
      rw [hpendrc] at hr0pend
      exact Bool.false_ne_true hr0pend
    · intro p hp row hrow hurow
      obtain ⟨r0, hr0, hpe⟩ := List.mem_map.mp hp
      obtain ⟨hr0db, _⟩ := get_pending_mem hr0
      have hp1 : p.1 = r0 := by rw [← hpe]
      rw [hp1] at hurow ⊢
      rw [hsame row hrow r0 hr0db hurow]
  have hfold : ∀ (sch : List Nat) (st : TransState), CacheInv H v0 rc st →
      CacheInv H v0 rc (sch.foldl (transStep hashFn oracle now) st) := by
    intro sch
    induction sch with
    | nil => intro st hst; exact hst
    | cons j rest ih =>
      intro st hst
      exact ih _ (transStep_cacheInv hashFn oracle now hrcH hrcZ hv0 hH hst j)
  have hfin : CacheInv H v0 rc
      (runTranslate hashFn oracle now db maxItems schedule) :=
    hfold schedule _ hinv0
  obtain ⟨f1, f2, f3, f4, f5, f6⟩ := hfin
  refine ⟨?_, f1, f2⟩
  have hnil : (runTranslate hashFn oracle now db maxItems schedule).calls.filter
      (fun p => decide (p.1 = H)) = [] :=
    List.filter_eq_nil_iff.mpr (fun q hq => by simp [f4 q hq])
  rw [callsForHash, hnil]
  rfl

def c4CachedRow : Row :=
  { article_url := "u0", search_url := none, title := none, journal := none,
    published_date := none, abstract_en := some "Shared abstract.",
    abstract_zh := some "缓存译文", abstract_en_hash := some "H",
    crawled_at := none, translated_at := none }

theorem translate_cached_hash_reuse_witness :
    callsForHash (runTranslate (fun s => s) c4Oracle "T"
      [c4CachedRow, c4Row1, c4Row2] 0 [0, 0, 1, 1]) "H" = 0 ∧
    zhOf (runTranslate (fun s => s) c4Oracle "T"
      [c4CachedRow, c4Row1, c4Row2] 0 [0, 0, 1, 1]) "u1" = some "缓存译文" ∧
    zhOf (runTranslate (fun s => s) c4Oracle "T"
      [c4CachedRow, c4Row1, c4Row2] 0 [0, 0, 1, 1]) "u2" = some "缓存译文" :=
  ⟨(translate_cached_hash_reuse (fun s => s) c4Oracle "T"
      [c4CachedRow, c4Row1, c4Row2] "H" "缓存译文" c4CachedRow
      (by decide) (by decide) rfl rfl (by decide) (by decide)
      (by intro row hrow hh z hz hzne
          rcases List.mem_cons.mp hrow with h | hrow
          · rw [h] at hz
            exact (Option.some.inj hz).symm
          · rcases List.mem_cons.mp hrow with h | hrow
            · rw [h] at hz
              exact Option.noConfusion hz
            · rcases List.mem_cons.mp hrow with h | hrow
              · rw [h] at hz
                exact Option.noConfusion hz
              · exact absurd hrow (List.not_mem_nil row))
      0 [0, 0, 1, 1]).1,
    by decide, by decide⟩

end PaperAuto
